import Mathlib

/-!
Verification of the perspective-tree core of zaio_app: the JSON extractor,
the tree validator/repairer (`_normalize_and_validate` / `_fallback_tree`),
the move trigger (`decide_move`) and the state-update trigger
(`infer_updates` / `_parse_json_obj` / `_clean_values`).

Python values coming out of `json.loads` are modelled by `JVal`; Python
dicts are insertion-ordered association lists with unique keys.
-/

/-- JSON-like Python values as produced by `json.loads`: `None`, booleans,
integers, strings, lists, and insertion-ordered dicts.  Floating-point
literals are not modelled (no claim depends on them); the parser below
rejects them. -/
inductive JVal : Type where
| null : JVal
| bool : Bool → JVal
| int : Int → JVal
| str : String → JVal
| arr : List JVal → JVal
| obj : List (String × JVal) → JVal
deriving Repr

/-- `d[k]` lookup on a Python dict (first matching entry). -/
def dget : List (String × JVal) → String → Option JVal
  | [], _ => none
  | p :: rest, k => if p.1 = k then some p.2 else dget rest k

/-- `d[k] = v` on a Python dict: replace in place if the key is present,
append at the end otherwise. -/
def dset : List (String × JVal) → String → JVal → List (String × JVal)
  | [], k, v => [(k, v)]
  | p :: rest, k, v => if p.1 = k then (k, v) :: rest else p :: dset rest k v

/-- `d.setdefault(k, v)`: insert only when the key is absent. -/
def dsetdefault : List (String × JVal) → String → JVal → List (String × JVal)
  | [], k, v => [(k, v)]
  | p :: rest, k, v => if p.1 = k then p :: rest else p :: dsetdefault rest k v

/-- `list(d.keys())`. -/
def dkeys (d : List (String × JVal)) : List String := d.map Prod.fst

/-- Python truthiness (`bool(v)`) of a JSON-derived value. -/
def truthy : JVal → Bool
  | .null => false
  | .bool b => b
  | .int n => n != 0
  | .str s => s != ""
  | .arr xs => !xs.isEmpty
  | .obj kvs => !kvs.isEmpty

/-- Truthiness of `d.get(k)` where a missing key gives `None`. -/
def truthyO : Option JVal → Bool
  | some v => truthy v
  | none => false

/-- `n.get(k)` on a node value; non-dict values have no `.get` (callers
below only apply this to dicts). -/
def nget (n : JVal) (k : String) : Option JVal :=
  match n with
  | .obj kvs => dget kvs k
  | _ => none

theorem dget_dset_self (d : List (String × JVal)) (k : String) (v : JVal) :
    dget (dset d k v) k = some v := by
  induction d with
  | nil => simp [dget, dset]
  | cons p rest ih =>
    by_cases h : p.1 = k
    · simp [dget, dset, h]
    · simp [dget, dset, h, ih]

theorem dget_dset_ne (d : List (String × JVal)) (k k' : String) (v : JVal)
    (h : k' ≠ k) : dget (dset d k v) k' = dget d k' := by
  induction d with
  | nil => simp [dget, dset, Ne.symm h]
  | cons p rest ih =>
    by_cases hp : p.1 = k
    · subst hp
      simp [dget, dset, Ne.symm h]
    · by_cases hp' : p.1 = k'
      · simp [dget, dset, hp, hp', h]
      · simp [dget, dset, hp, hp', ih]

theorem dget_dsetdefault_ne (d : List (String × JVal)) (k k' : String) (v : JVal)
    (h : k' ≠ k) : dget (dsetdefault d k v) k' = dget d k' := by
  induction d with
  | nil => simp [dget, dsetdefault, Ne.symm h]
  | cons p rest ih =>
    by_cases hp : p.1 = k
    · simp [dget, dsetdefault, hp]
    · by_cases hp' : p.1 = k'
      · simp [dget, dsetdefault, hp, hp', h]
      · simp [dget, dsetdefault, hp, hp', ih]

theorem dget_dsetdefault_absent (d : List (String × JVal)) (k : String) (v : JVal)
    (h : dget d k = none) : dget (dsetdefault d k v) k = some v := by
  induction d with
  | nil => simp [dget, dsetdefault]
  | cons p rest ih =>
    by_cases hp : p.1 = k
    · simp [dget, hp] at h
    · simp [dget, hp] at h
      simp [dget, dsetdefault, hp, ih h]

theorem dget_dsetdefault_present (d : List (String × JVal)) (k : String) (v w : JVal)
    (h : dget d k = some w) : dget (dsetdefault d k v) k = some w := by
  induction d with
  | nil => simp [dget] at h
  | cons p rest ih =>
    by_cases hp : p.1 = k
    · simp [dget, hp] at h
      simp [dget, dsetdefault, hp, h]
    · simp [dget, hp] at h
      simp [dget, dsetdefault, hp, ih h]

/-- The double-quote character (written by code point to keep literals plain). -/
def qc : Char := Char.ofNat 34

/-- The backslash character. -/
def bsl : Char := Char.ofNat 92

/-- The backtick character used by markdown code fences. -/
def btk : Char := Char.ofNat 96

/-- Python whitespace as stripped by `str.strip()` and matched by `\s`
(ASCII part: space, tab, newline, carriage return, vertical tab, form feed). -/
def isPySpace (c : Char) : Bool :=
  c = ' ' || c = Char.ofNat 9 || c = Char.ofNat 10 ||
  c = Char.ofNat 13 || c = Char.ofNat 11 || c = Char.ofNat 12

/-- Whitespace accepted between tokens by `json.loads`. -/
def isJsonWs (c : Char) : Bool :=
  c = ' ' || c = Char.ofNat 9 || c = Char.ofNat 10 || c = Char.ofNat 13

def skipWs (l : List Char) : List Char := l.dropWhile isJsonWs

/-- `text.strip()`. -/
def pyStrip (l : List Char) : List Char :=
  ((l.dropWhile isPySpace).reverse.dropWhile isPySpace).reverse

/-- A markdown code fence: three backticks. -/
def fenceMark : List Char := [Char.ofNat 96, Char.ofNat 96, Char.ofNat 96]

/-- The leading-fence substitution of `_extract_json`: strip three leading
backticks, an optional case-insensitive `json` tag, and following
whitespace (the `(?:json)?` tag is tried before the whitespace). -/
def stripLeadFence (l : List Char) : List Char :=
  if l.take 3 = fenceMark then
    let l2 := l.drop 3
    let l3 := if (l2.take 4).map Char.toLower = ['j', 's', 'o', 'n'] then l2.drop 4 else l2
    l3.dropWhile isPySpace
  else l

/-- The trailing-fence substitution: strip three trailing backticks and the
whitespace just before them. -/
def stripTrailFence (l : List Char) : List Char :=
  if l.reverse.take 3 = fenceMark then
    ((l.reverse.drop 3).dropWhile isPySpace).reverse
  else l

def isDigitCh (c : Char) : Bool := 48 ≤ c.toNat && c.toNat ≤ 57

def digitVal (c : Char) : Nat := c.toNat - '0'.toNat

/-- Consume a run of decimal digits, extending the accumulator. -/
def parseDigits : List Char → Nat → (Nat × List Char)
  | [], acc => (acc, [])
  | c :: rest, acc =>
    if isDigitCh c then parseDigits rest (acc * 10 + digitVal c) else (acc, c :: rest)

/-- Package an integer literal; a following `.`, `e` or `E` means the
source denotes a float, which this model rejects (no claim involves
floating point). -/
def mkIntResult (neg : Bool) (n : Nat) (r : List Char) : Option (JVal × List Char) :=
  let v : JVal := JVal.int (if neg then -(n : Int) else (n : Int))
  match r with
  | c :: _ => if c = '.' || c = 'e' || c = 'E' then none else some (v, r)
  | [] => some (v, r)

/-- Parse a JSON number literal (`-?(0|[1-9][0-9]*)`, integers only). -/
def parseNumber (l : List Char) : Option (JVal × List Char) :=
  let p : Bool × List Char :=
    match l with
    | c :: rest => if c = '-' then (true, rest) else (false, l)
    | [] => (false, l)
  match p.2 with
  | [] => none
  | c :: rest =>
    if c = '0' then mkIntResult p.1 0 rest
    else if isDigitCh c then
      let q := parseDigits rest (digitVal c)
      mkIntResult p.1 q.1 q.2
    else none

/-- Decode a JSON escape sequence `\X` (no `\uXXXX`; no claim needs it). -/
def escChar (c : Char) : Option Char :=
  if c = qc then some qc
  else if c = bsl then some bsl
  else if c = '/' then some '/'
  else if c = 'n' then some (Char.ofNat 10)
  else if c = 't' then some (Char.ofNat 9)
  else if c = 'r' then some (Char.ofNat 13)
  else if c = 'b' then some (Char.ofNat 8)
  else if c = 'f' then some (Char.ofNat 12)
  else none

/-- Parse the body of a JSON string after the opening quote; raw control
characters are rejected as by the strict `json.loads`. -/
def parseStrBody : List Char → List Char → Option (String × List Char)
  | [], _ => none
  | c :: rest, acc =>
    if c = qc then some (String.mk acc.reverse, rest)
    else if c = bsl then
      match rest with
      | [] => none
      | e :: rest2 =>
        match escChar e with
        | some d => parseStrBody rest2 (d :: acc)
        | none => none
    else if c.toNat < 32 then none
    else parseStrBody rest (c :: acc)

mutual

/-- Fuel-indexed JSON value parser modelling `json.loads` (floats, `NaN`,
`Infinity` and `\uXXXX` escapes excluded). -/
def parseVal : Nat → List Char → Option (JVal × List Char)
  | 0, _ => none
  | Nat.succ f, l =>
    match skipWs l with
    | '{' :: r =>
      match skipWs r with
      | '}' :: r2 => some (JVal.obj [], r2)
      | r2 => parseMembers f r2 []
    | '[' :: r =>
      match skipWs r with
      | ']' :: r2 => some (JVal.arr [], r2)
      | r2 => parseElems f r2 []
    | c :: r =>
      if c = qc then
        match parseStrBody r [] with
        | some (s, r2) => some (JVal.str s, r2)
        | none => none
      else if c = 'n' then
        match r with
        | 'u' :: 'l' :: 'l' :: r2 => some (JVal.null, r2)
        | _ => none
      else if c = 't' then
        match r with
        | 'r' :: 'u' :: 'e' :: r2 => some (JVal.bool true, r2)
        | _ => none
      else if c = 'f' then
        match r with
        | 'a' :: 'l' :: 's' :: 'e' :: r2 => some (JVal.bool false, r2)
        | _ => none
      else if c = '-' || isDigitCh c then parseNumber (c :: r)
      else none
    | [] => none

/-- Parse the members of an object after `{` (first member expected at the
head, whitespace already skipped).  Duplicate keys keep the last value at
the first position, as `dict` insertion does. -/
def parseMembers : Nat → List Char → List (String × JVal) → Option (JVal × List Char)
  | 0, _, _ => none
  | Nat.succ f, l, acc =>
    match l with
    | c :: r =>
      if c = qc then
        match parseStrBody r [] with
        | some (k, r2) =>
          match skipWs r2 with
          | ':' :: r3 =>
            match parseVal f r3 with
            | some (v, r4) =>
              match skipWs r4 with
              | ',' :: r5 => parseMembers f (skipWs r5) (dset acc k v)
              | '}' :: r5 => some (JVal.obj (dset acc k v), r5)
              | _ => none
            | none => none
          | _ => none
        | none => none
      else none
    | [] => none

/-- Parse the elements of an array after `[` (non-empty case). -/
def parseElems : Nat → List Char → List JVal → Option (JVal × List Char)
  | 0, _, _ => none
  | Nat.succ f, l, acc =>
    match parseVal f l with
    | some (v, r) =>
      match skipWs r with
      | ',' :: r2 => parseElems f r2 (acc ++ [v])
      | ']' :: r2 => some (JVal.arr (acc ++ [v]), r2)
      | _ => none
    | none => none

end

/-- `json.loads` on a candidate string: one value, then only whitespace. -/
def jsonParseL (l : List Char) : Option JVal :=
  match parseVal (2 * l.length + 2) l with
  | some (v, r) => if skipWs r = [] then some v else none
  | none => none

def firstIdx (c : Char) : List Char → Option Nat
  | [] => none
  | d :: rest => if d = c then some 0 else (firstIdx c rest).map (· + 1)

def lastIdx (c : Char) (l : List Char) : Option Nat :=
  match firstIdx c l.reverse with
  | some k => some (l.length - 1 - k)
  | none => none

/-- The greedy brace-span search of `_extract_json`: the substring from
the first opening brace to the last closing brace, provided the latter
comes after the former. -/
def braceChunk (l : List Char) : Option (List Char) :=
  match firstIdx '{' l, lastIdx '}' l with
  | some i, some j => if i < j then some ((l.drop i).take (j - i + 1)) else none
  | _, _ => none

/-- `_extract_json` from `perspective_generate_engine.py` (the copy in
`perspective_move_trigger.py` is the same code): strip the string, strip a
surrounding code fence, try a whole-string `json.loads`, then fall back to
the first-to-last brace span; only dict results are accepted. -/
def extract_json (s : String) : Option JVal :=
  let l1 := stripTrailFence (stripLeadFence (pyStrip s.data))
  match jsonParseL l1 with
  | some (JVal.obj kvs) => some (JVal.obj kvs)
  | _ =>
    match braceChunk l1 with
    | some chunk =>
      match jsonParseL chunk with
      | some (JVal.obj kvs) => some (JVal.obj kvs)
      | _ => none
    | none => none

/-- `_parse_json_obj` from `state_update_trigger.py`: the same recovery
strategy (its regexes differ only by redundant whitespace already removed
by `strip`), with an explicit empty-input guard. -/
def parse_json_obj (s : String) : Option (List (String × JVal)) :=
  if s = "" then none
  else
    match extract_json s with
    | some (JVal.obj kvs) => some kvs
    | _ => none

/-- One character of a compact JSON string literal (`json.dumps` escaping
restricted to quote and backslash; well-formedness below excludes the
rest). -/
def serStrChar (c : Char) : List Char :=
  if c = qc then [bsl, qc] else if c = bsl then [bsl, bsl] else [c]

def serStrChars : List Char → List Char
  | [] => []
  | c :: rest => serStrChar c ++ serStrChars rest

def digitChar10 (n : Nat) : Char :=
  if n = 0 then '0' else if n = 1 then '1' else if n = 2 then '2'
  else if n = 3 then '3' else if n = 4 then '4' else if n = 5 then '5'
  else if n = 6 then '6' else if n = 7 then '7' else if n = 8 then '8' else '9'

def serNat (n : Nat) : List Char :=
  if h : n < 10 then [digitChar10 n]
  else serNat (n / 10) ++ [digitChar10 (n % 10)]
termination_by n
decreasing_by
  exact Nat.div_lt_self (by omega) (by omega)

def serInt (n : Int) : List Char :=
  if n < 0 then '-' :: serNat (-n).toNat else serNat n.toNat

mutual

/-- Compact serialisation of a value, as a minified `json.dumps` writes it. -/
def serVal : JVal → List Char
  | .int n => serInt n
  | .str s => qc :: (serStrChars s.data ++ [qc])
  | .null => "null".data
  | .bool true => "true".data
  | .bool false => "false".data
  | .arr [] => "[]".data
  | .obj [] => "{}".data
  | .arr (v :: vs) => '[' :: (serVal v ++ (serElemsRest vs ++ [']']))
  | .obj ((k, v) :: kvs) => '{' :: (serMember k v ++ (serMembersRest kvs ++ ['}']))

def serElemsRest : List JVal → List Char
  | [] => []
  | v :: vs => ',' :: (serVal v ++ serElemsRest vs)

def serMember (k : String) (v : JVal) : List Char :=
  (qc :: (serStrChars k.data ++ [qc])) ++ (':' :: serVal v)

def serMembersRest : List (String × JVal) → List Char
  | [] => []
  | (k, v) :: kvs => ',' :: (serMember k v ++ serMembersRest kvs)

end

/-- The minified serialisation as a string. -/
def minify (v : JVal) : String := String.mk (serVal v)

mutual

/-- Fuel needed by `parseVal` to read a serialised value back. -/
def sizeV : JVal → Nat
  | .arr vs => 1 + sizeElems vs
  | .obj kvs => 1 + sizeMembers kvs
  | _ => 1

def sizeElems : List JVal → Nat
  | [] => 0
  | v :: vs => 1 + sizeV v + sizeElems vs

def sizeMembers : List (String × JVal) → Nat
  | [] => 0
  | p :: kvs => 1 + sizeV p.2 + sizeMembers kvs

end

/-- The decision dict returned by `decide_move`. -/
structure MoveInfo where
  move : Bool
  next_node_id : Option String
  need_new_tree : Bool
  reason : String
deriving Repr, DecidableEq

/-- `list(current_node.get("children") or [])` under the surrounding
`try/except`: a list is copied, a string becomes its one-character pieces,
a dict its keys; `list(...)` of a number or of `True` raises `TypeError`,
which the `except` turns into `[]`, as does a falsy or missing value or a
non-dict `current_node` (whose `.get` raises `AttributeError`). -/
def childrenOf (current_node : JVal) : List JVal :=
  match current_node with
  | .obj kvs =>
    match dget kvs "children" with
    | some v =>
      if truthy v then
        match v with
        | .arr xs => xs
        | .str s => s.data.map (fun c => JVal.str (String.mk [c]))
        | .obj m => m.map (fun p => JVal.str p.1)
        | _ => []
      else []
    | none => []
  | _ => []

/-- Python `x in children` for the decision's `next_node_id`, which the
code guarantees is a string or `None`: `in` tests `==` against each
element, and a string equals only the equal string, `None` only `None`. -/
def pyMemNext : Option String → List JVal → Bool
  | none, l => l.any (fun v => match v with | .null => true | _ => false)
  | some s, l => l.any (fun v => match v with | .str t => t = s | _ => false)

/-- Default reason used when the model asks for a new tree without one. -/
def defaultNewTreeReason : String := "这棵树不太贴合现在的话题，换一棵更合适的。"

/-- `_extract_json(reply) or {}` as used by `decide_move`. -/
def parsedObjOf (reply : String) : List (String × JVal) :=
  match extract_json reply with
  | some (JVal.obj kvs) => kvs
  | _ => []

/-- The `reason` field sanitisation of `decide_move`. -/
def reasonOf (reply : String) : String :=
  match dget (parsedObjOf reply) "reason" with
  | some (JVal.str s) => s
  | _ => ""

/-- The `next_node_id` field sanitisation of `decide_move`. -/
def nextOf (reply : String) : Option String :=
  match dget (parsedObjOf reply) "next_node_id" with
  | some (JVal.str s) => some s
  | _ => none

/-- `decide_move` from `perspective_move_trigger.py`, from the point where
the model reply text is parsed (prompt construction and the LLM call are
external collaborators; `reply` is the text they return). -/
def decide_move (current_node : JVal) (reply : String) : MoveInfo :=
  let o := parsedObjOf reply
  let move := truthyO (dget o "move")
  let need_new_tree := truthyO (dget o "need_new_tree")
  let reason := reasonOf reply
  let children := childrenOf current_node
  let next_node_id := nextOf reply
  if need_new_tree then
    ⟨false, none, true, if reason = "" then defaultNewTreeReason else reason⟩
  else if children.isEmpty then
    ⟨false, none, false, reason⟩
  else if move then
    if pyMemNext next_node_id children then
      ⟨true, next_node_id, false, reason⟩
    else
      ⟨false, none, false, reason⟩
  else
    ⟨false, none, false, reason⟩

/-- C2: for every model response, `need_new_tree = true` in the decision
forces `move = false` and `next_node_id = null`, and `move = true` forces
`next_node_id` to be a member of the current node's children list. -/
theorem c2_decision_invariant (current_node : JVal) (reply : String) :
    ((decide_move current_node reply).need_new_tree = true →
      (decide_move current_node reply).move = false ∧
      (decide_move current_node reply).next_node_id = none) ∧
    ((decide_move current_node reply).move = true →
      pyMemNext (decide_move current_node reply).next_node_id
        (childrenOf current_node) = true) := by
  simp only [decide_move]
  split_ifs <;> simp_all

/-- Witness for C2 at two concrete responses: one claiming a new tree, one
making a legal move. -/
theorem c2_decision_invariant_witness :
    ((decide_move (JVal.obj []) "\x7b\"need_new_tree\": true\x7d").move = false ∧
     (decide_move (JVal.obj []) "\x7b\"need_new_tree\": true\x7d").next_node_id = none) ∧
    pyMemNext
      (decide_move (JVal.obj [("children", JVal.arr [JVal.str "N1"])])
        "\x7b\"move\": true, \"next_node_id\": \"N1\"\x7d").next_node_id
      (childrenOf (JVal.obj [("children", JVal.arr [JVal.str "N1"])])) = true :=
  ⟨(c2_decision_invariant (JVal.obj []) "\x7b\"need_new_tree\": true\x7d").1 (by rfl),
   (c2_decision_invariant (JVal.obj [("children", JVal.arr [JVal.str "N1"])])
      "\x7b\"move\": true, \"next_node_id\": \"N1\"\x7d").2 (by rfl)⟩

/-- C3: the consistency repair of `decide_move` applies `need_new_tree`
first (forcing the new-tree decision, with a default reason exactly when
the sanitised reason is empty), then downgrades a claimed move whose
`next_node_id` is not among the current node's children to the stay
decision; Scenario 2 of the spec is the concrete third conjunct. -/
theorem c3_repair_priority :
    (∀ (current_node : JVal) (reply : String),
      truthyO (dget (parsedObjOf reply) "need_new_tree") = true →
      decide_move current_node reply =
        ⟨false, none, true,
          if reasonOf reply = "" then defaultNewTreeReason else reasonOf reply⟩) ∧
    (∀ (current_node : JVal) (reply : String),
      truthyO (dget (parsedObjOf reply) "need_new_tree") = false →
      truthyO (dget (parsedObjOf reply) "move") = true →
      pyMemNext (nextOf reply) (childrenOf current_node) = false →
      decide_move current_node reply = ⟨false, none, false, reasonOf reply⟩) ∧
    decide_move (JVal.obj [("children", JVal.arr [JVal.str "N1", JVal.str "N2"])])
        "\x7b\"move\":\"yes\",\"next_node_id\":\"N9\",\"need_new_tree\":false\x7d" =
      ⟨false, none, false, ""⟩ := by
  refine ⟨?_, ?_, by rfl⟩
  · intro current_node reply h
    simp only [decide_move]
    split_ifs <;> simp_all
  · intro current_node reply h1 h2 h3
    simp only [decide_move]
    split_ifs <;> simp_all

/-- Witness for C3 at concrete inputs: a new-tree response without a
reason, and an out-of-children move response. -/
theorem c3_repair_priority_witness :
    decide_move (JVal.obj []) "\x7b\"need_new_tree\": 1\x7d" =
      ⟨false, none, true, defaultNewTreeReason⟩ ∧
    decide_move (JVal.obj [("children", JVal.arr [JVal.str "N1"])])
        "\x7b\"move\": true, \"next_node_id\": \"N7\"\x7d" =
      ⟨false, none, false, ""⟩ :=
  ⟨c3_repair_priority.1 (JVal.obj []) "\x7b\"need_new_tree\": 1\x7d" (by rfl),
   c3_repair_priority.2.1 (JVal.obj [("children", JVal.arr [JVal.str "N1"])])
     "\x7b\"move\": true, \"next_node_id\": \"N7\"\x7d" (by rfl) (by rfl) (by rfl)⟩

/-- C10: `decide_move` coerces the `move` field with Python truthiness
rather than comparing it with the string `move`: any non-empty string —
including the prompt-legal values `stay` and `none` — counts as a move
request, so with `need_new_tree` absent or `false` and a `next_node_id`
that is one of the current node's children, the decision advances. -/
theorem c10_move_truthiness (current_node : JVal) (reply : String) (m nid : String)
    (hn : dget (parsedObjOf reply) "need_new_tree" = none ∨
          dget (parsedObjOf reply) "need_new_tree" = some (JVal.bool false))
    (hm : dget (parsedObjOf reply) "move" = some (JVal.str m))
    (hm0 : m ≠ "")
    (hnid : dget (parsedObjOf reply) "next_node_id" = some (JVal.str nid))
    (hmem : pyMemNext (some nid) (childrenOf current_node) = true) :
    (decide_move current_node reply).move = true ∧
    (decide_move current_node reply).next_node_id = some nid := by
  have hnext : nextOf reply = some nid := by simp [nextOf, hnid]
  have hnnt : truthyO (dget (parsedObjOf reply) "need_new_tree") = false := by
    rcases hn with h | h <;> simp [h, truthyO, truthy]
  have hmv : truthyO (dget (parsedObjOf reply) "move") = true := by
    simp [hm, truthyO, truthy, hm0]
  have hne : (childrenOf current_node).isEmpty = false := by
    cases hch : childrenOf current_node with
    | nil => rw [hch] at hmem; simp [pyMemNext] at hmem
    | cons a l => simp [List.isEmpty]
  simp only [decide_move]
  rw [hnext] at *
  simp [hnnt, hmv, hne, hmem, hnext]

/-- Witness for C10: the model answers `move: "stay"` with a valid child,
and the code still advances to that child. -/
theorem c10_move_truthiness_witness :
    (decide_move (JVal.obj [("children", JVal.arr [JVal.str "N1"])])
        "\x7b\"move\": \"stay\", \"next_node_id\": \"N1\", \"need_new_tree\": false\x7d").move = true ∧
    (decide_move (JVal.obj [("children", JVal.arr [JVal.str "N1"])])
        "\x7b\"move\": \"stay\", \"next_node_id\": \"N1\", \"need_new_tree\": false\x7d").next_node_id =
      some "N1" :=
  c10_move_truthiness (JVal.obj [("children", JVal.arr [JVal.str "N1"])])
    "\x7b\"move\": \"stay\", \"next_node_id\": \"N1\", \"need_new_tree\": false\x7d"
    "stay" "N1" (Or.inr (by rfl)) (by rfl) (by decide) (by rfl) (by rfl)

/-- `ALLOWED_KEYS` of `StateUpdateTrigger` (a Python set; only membership
is used, so a list model suffices). -/
def ALLOWED_KEYS : List String :=
  ["emotion", "need", "energy", "activity", "concern", "body_state",
   "social_state", "topic", "mood", "risk", "sleep", "focus",
   "_last_update_ts", "_last_user_text"]

/-- Python `str.lower()` (ASCII model). -/
def pyLower (s : String) : String := String.mk (s.data.map Char.toLower)

/-- Python `str.strip()` on a string value. -/
def pyStripS (s : String) : String := String.mk (pyStrip s.data)

/-- Python slicing `s[:20]`. -/
def pyTrunc20 (s : String) : String := String.mk (s.data.take 20)

/-- The single-quote character. -/
def sqch : Char := Char.ofNat 39

def reprStrChar (delim c : Char) : List Char :=
  if c = bsl then [bsl, bsl] else if c = delim then [bsl, c] else [c]

def reprStrChars (delim : Char) : List Char → List Char
  | [] => []
  | c :: rest => reprStrChar delim c ++ reprStrChars delim rest

/-- Python `repr` of a string: single-quoted unless the string holds a
single quote and no double quote; backslashes and the delimiter escaped.
(Control characters keep their raw form in this model; no claim
exercises them.) -/
def pyReprStr (s : String) : List Char :=
  let delim := if s.data.contains sqch && !s.data.contains qc then qc else sqch
  delim :: (reprStrChars delim s.data ++ [delim])

mutual

/-- Python `repr` of a JSON-derived value, as `str()` prints lists and
dicts. -/
def pyRepr : JVal → List Char
  | .null => ['N', 'o', 'n', 'e']
  | .bool true => ['T', 'r', 'u', 'e']
  | .bool false => ['F', 'a', 'l', 's', 'e']
  | .int n => serInt n
  | .str s => pyReprStr s
  | .arr [] => ['[', ']']
  | .arr (v :: vs) => '[' :: (pyRepr v ++ (pyReprRestE vs ++ [']']))
  | .obj [] => ['{', '}']
  | .obj (p :: kvs) => '{' :: (pyReprMember p ++ (pyReprRestM kvs ++ ['}']))

def pyReprRestE : List JVal → List Char
  | [] => []
  | v :: vs => ',' :: ' ' :: (pyRepr v ++ pyReprRestE vs)

def pyReprMember : String × JVal → List Char
  | (k, v) => pyReprStr k ++ (':' :: ' ' :: pyRepr v)

def pyReprRestM : List (String × JVal) → List Char
  | [] => []
  | p :: kvs => ',' :: ' ' :: (pyReprMember p ++ pyReprRestM kvs)

end

/-- Python `str(v)` for the values reaching the final branch of
`_clean_values` (lists and dicts fall back to their `repr`). -/
def pyStr (v : JVal) : String :=
  match v with
  | .str s => s
  | _ => String.mk (pyRepr v)

/-- `_clean_values` on one entry: heartbeat fields pass through verbatim,
`None` is dropped, a string is stripped, dropped when empty or spelling
`null`/`none` case-insensitively, else truncated to 20 characters;
numbers and booleans pass; anything else is stringified (untruncated). -/
def cleanOne (k : String) (v : JVal) : Option JVal :=
  if k = "_last_update_ts" ∨ k = "_last_user_text" then some v
  else
    match v with
    | .null => none
    | .str s =>
      let vv := pyStripS s
      if vv = "" then none
      else if pyLower vv = "null" ∨ pyLower vv = "none" then none
      else some (.str (if 20 < vv.length then pyTrunc20 vv else vv))
    | .int _ => some v
    | .bool _ => some v
    | w => some (.str (pyStr w))

/-- `_clean_values` from `state_update_trigger.py` (iteration order of the
dict preserved). -/
def clean_values : List (String × JVal) → List (String × JVal)
  | [] => []
  | (k, v) :: rest =>
    match cleanOne k v with
    | some w => (k, w) :: clean_values rest
    | none => clean_values rest

/-- The heartbeat fallback dict of `infer_updates`. -/
def heartbeat_fallback (user_text : String) (now : Int) : List (String × JVal) :=
  [("_last_update_ts", JVal.int now), ("_last_user_text", JVal.str user_text)]

/-- The two heartbeat-merge statements of `infer_updates`: fill either
field from the fallback only when the parsed dict lacks it (a present key
keeps its value, whatever it is). -/
def merge_heartbeat (d0 : List (String × JVal)) (user_text : String) (now : Int) :
    List (String × JVal) :=
  let d1 := if (dget d0 "_last_update_ts").isSome then d0
            else d0 ++ [("_last_update_ts", JVal.int now)]
  if (dget d1 "_last_user_text").isSome then d1
  else d1 ++ [("_last_user_text", JVal.str user_text)]

/-- `infer_updates` from `state_update_trigger.py`, from the point where
the model reply is received: `now` stands for `int(time.time())` and
`raw` for the reply text (prompt construction and the LLM call are
external collaborators). -/
def infer_updates (user_text : String) (now : Int) (raw : String) :
    List (String × JVal) :=
  if raw = "" then heartbeat_fallback user_text now
  else
    match parse_json_obj raw with
    | none => heartbeat_fallback user_text now
    | some d0 =>
      let d2 := merge_heartbeat d0 user_text now
      let d3 := d2.filter (fun p => ALLOWED_KEYS.contains p.1)
      let d4 := clean_values d3
      if d4.isEmpty then heartbeat_fallback user_text now else d4

theorem dget_append_left (d e : List (String × JVal)) (k : String) (v : JVal)
    (h : dget d k = some v) : dget (d ++ e) k = some v := by
  induction d with
  | nil => simp [dget] at h
  | cons p rest ih =>
    by_cases hp : p.1 = k
    · simp [dget, hp] at h
      simp [dget, hp, h]
    · simp [dget, hp] at h
      simp [dget, hp, ih h]

theorem dget_append_right (d e : List (String × JVal)) (k : String)
    (h : dget d k = none) : dget (d ++ e) k = dget e k := by
  induction d with
  | nil => simp [dget]
  | cons p rest ih =>
    by_cases hp : p.1 = k
    · simp [dget, hp] at h
    · simp [dget, hp] at h
      simp [dget, hp, ih h]

theorem dget_clean_values_heartbeat (d : List (String × JVal)) (k : String) (v : JVal)
    (hk : k = "_last_update_ts" ∨ k = "_last_user_text")
    (h : dget d k = some v) : dget (clean_values d) k = some v := by
  induction d with
  | nil => simp [dget] at h
  | cons p rest ih =>
    obtain ⟨k', v'⟩ := p
    by_cases hp : k' = k
    · subst hp
      simp [dget] at h
      rw [← h]
      have hco : cleanOne k' v' = some v' := by
        rcases hk with h' | h' <;> simp [cleanOne, h']
      simp [clean_values, hco, dget]
    · simp [dget, hp] at h
      cases hco : cleanOne k' v' with
      | some w => simp [clean_values, hco, dget, hp, ih h]
      | none => simp [clean_values, hco, ih h]

theorem dget_filter_allowed (d : List (String × JVal)) (k : String)
    (hk : k ∈ ALLOWED_KEYS) :
    dget (d.filter (fun p => ALLOWED_KEYS.contains p.1)) k = dget d k := by
  induction d with
  | nil => simp [dget]
  | cons p rest ih =>
    by_cases hp : p.1 = k
    · have hm : p.1 ∈ ALLOWED_KEYS := by rw [hp]; exact hk
      simp [List.filter_cons, hm, hk, dget, hp]
    · by_cases hm : p.1 ∈ ALLOWED_KEYS
      · simp [List.filter_cons, hm, dget, hp]
        simpa using ih
      · simp [List.filter_cons, hm, dget, hp]
        simpa using ih

theorem merge_heartbeat_ts (d0 : List (String × JVal)) (ut : String) (now : Int) :
    ∃ w, dget (merge_heartbeat d0 ut now) "_last_update_ts" = some w := by
  unfold merge_heartbeat
  by_cases h1 : (dget d0 "_last_update_ts").isSome
  · obtain ⟨w, hw⟩ := Option.isSome_iff_exists.mp h1
    simp only [if_pos h1]
    by_cases h2 : (dget d0 "_last_user_text").isSome
    · exact ⟨w, by rw [if_pos h2]; exact hw⟩
    · exact ⟨w, by rw [if_neg h2]; exact dget_append_left _ _ _ _ hw⟩
  · have h0 := Option.not_isSome_iff_eq_none.mp h1
    simp only [if_neg h1]
    have hd1 : dget (d0 ++ [("_last_update_ts", JVal.int now)]) "_last_update_ts" =
        some (JVal.int now) := by
      rw [dget_append_right _ _ _ h0]; simp [dget]
    by_cases h2 : (dget (d0 ++ [("_last_update_ts", JVal.int now)]) "_last_user_text").isSome
    · exact ⟨JVal.int now, by rw [if_pos h2]; exact hd1⟩
    · exact ⟨JVal.int now, by rw [if_neg h2]; exact dget_append_left _ _ _ _ hd1⟩

theorem merge_heartbeat_text (d0 : List (String × JVal)) (ut : String) (now : Int) :
    ∃ w, dget (merge_heartbeat d0 ut now) "_last_user_text" = some w := by
  unfold merge_heartbeat
  by_cases h1 : (dget d0 "_last_update_ts").isSome
  · simp only [if_pos h1]
    by_cases h2 : (dget d0 "_last_user_text").isSome
    · obtain ⟨w, hw⟩ := Option.isSome_iff_exists.mp h2
      exact ⟨w, by rw [if_pos h2]; exact hw⟩
    · have h0 := Option.not_isSome_iff_eq_none.mp h2
      exact ⟨JVal.str ut, by rw [if_neg h2, dget_append_right _ _ _ h0]; simp [dget]⟩
  · simp only [if_neg h1]
    by_cases h2 : (dget (d0 ++ [("_last_update_ts", JVal.int now)]) "_last_user_text").isSome
    · obtain ⟨w, hw⟩ := Option.isSome_iff_exists.mp h2
      exact ⟨w, by rw [if_pos h2]; exact hw⟩
    · have h0 := Option.not_isSome_iff_eq_none.mp h2
      exact ⟨JVal.str ut, by rw [if_neg h2, dget_append_right _ _ _ h0]; simp [dget]⟩

theorem dget_heartbeat_cleaned (d2 : List (String × JVal)) (k : String) (w : JVal)
    (hk : k = "_last_update_ts" ∨ k = "_last_user_text")
    (h : dget d2 k = some w) :
    dget (clean_values (d2.filter (fun p => ALLOWED_KEYS.contains p.1))) k = some w := by
  have hmem : k ∈ ALLOWED_KEYS := by
    rcases hk with h' | h' <;> (rw [h']; decide)
  exact dget_clean_values_heartbeat _ k w hk ((dget_filter_allowed d2 k hmem).trans h)

theorem dget_ne_nil (d : List (String × JVal)) (k : String) (w : JVal)
    (h : dget d k = some w) : d ≠ [] := by
  intro h0
  rw [h0] at h
  simp [dget] at h

/-- C6: every patch returned by `infer_updates` contains both heartbeat
keys; an unparseable reply yields exactly the heartbeat-only patch; and
the patch is never the empty mapping. -/
theorem c6_heartbeat_patch (user_text : String) (now : Int) (raw : String) :
    ((dget (infer_updates user_text now raw) "_last_update_ts").isSome ∧
     (dget (infer_updates user_text now raw) "_last_user_text").isSome) ∧
    (parse_json_obj raw = none →
      infer_updates user_text now raw = heartbeat_fallback user_text now) ∧
    infer_updates user_text now raw ≠ [] := by
  by_cases hraw : raw = ""
  · refine ⟨⟨?_, ?_⟩, fun _ => ?_, ?_⟩ <;>
      simp [infer_updates, hraw, heartbeat_fallback, dget]
  · cases hp : parse_json_obj raw with
    | none =>
      refine ⟨⟨?_, ?_⟩, fun _ => ?_, ?_⟩ <;>
        simp [infer_updates, hraw, hp, heartbeat_fallback, dget]
    | some d0 =>
      obtain ⟨w1, hw1⟩ := merge_heartbeat_ts d0 user_text now
      obtain ⟨w2, hw2⟩ := merge_heartbeat_text d0 user_text now
      have hc1 := dget_heartbeat_cleaned (merge_heartbeat d0 user_text now)
        "_last_update_ts" w1 (Or.inl rfl) hw1
      have hc2 := dget_heartbeat_cleaned (merge_heartbeat d0 user_text now)
        "_last_user_text" w2 (Or.inr rfl) hw2
      have hnn := dget_ne_nil _ _ _ hc1
      have hie : (clean_values ((merge_heartbeat d0 user_text now).filter
          (fun p => ALLOWED_KEYS.contains p.1))).isEmpty = false := by
        cases hc : clean_values ((merge_heartbeat d0 user_text now).filter
            (fun p => ALLOWED_KEYS.contains p.1)) with
        | nil => exact absurd hc hnn
        | cons a l => simp [List.isEmpty]
      have hres : infer_updates user_text now raw =
          clean_values ((merge_heartbeat d0 user_text now).filter
            (fun p => ALLOWED_KEYS.contains p.1)) := by
        simp only [infer_updates, if_neg hraw, hp]
        exact if_neg (by simpa using hnn)
      refine ⟨⟨?_, ?_⟩, fun hcon => ?_, ?_⟩
      · rw [hres, hc1]; rfl
      · rw [hres, hc2]; rfl
      · exact absurd hcon (by simp)
      · rw [hres]; exact hnn

/-- Witness for C6 at a reply that parses to no JSON object. -/
theorem c6_heartbeat_patch_witness :
    infer_updates "hi" 5 "no json at all" = heartbeat_fallback "hi" 5 ∧
    infer_updates "hi" 5 "no json at all" ≠ [] :=
  ⟨(c6_heartbeat_patch "hi" 5 "no json at all").2.1 (by rfl),
   (c6_heartbeat_patch "hi" 5 "no json at all").2.2⟩

/-- Does the string start with a bracket (the shape of a stringified list
or dict)? -/
def bracketHead (s : String) : Bool :=
  match s.data with
  | c :: _ => c = '[' || c = '{'
  | [] => false

/-- Value hygiene promised by `_clean_values` for non-heartbeat keys:
never `None`, and a string value is non-empty, does not spell
`null`/`none` case-insensitively, and is at most 20 characters unless it
came from stringifying a list or dict (then it starts with a bracket). -/
def allowedValue : JVal → Bool
  | .null => false
  | .str s =>
    (s != "") && (pyLower s != "null") && (pyLower s != "none") &&
      (decide (s.length ≤ 20) || bracketHead s)
  | _ => true

theorem length_mk_str (l : List Char) : (String.mk l).length = l.length := rfl

theorem data_mk (l : List Char) : (String.mk l).data = l := rfl

theorem length_pyLower (s : String) : (pyLower s).length = s.length := by
  unfold pyLower
  rw [length_mk_str, List.length_map]
  rfl

theorem mem_clean_values (d : List (String × JVal)) (p : String × JVal)
    (h : p ∈ clean_values d) :
    ∃ q, q ∈ d ∧ q.1 = p.1 ∧ cleanOne q.1 q.2 = some p.2 := by
  induction d with
  | nil => simp [clean_values] at h
  | cons q rest ih =>
    obtain ⟨k, v⟩ := q
    cases hco : cleanOne k v with
    | some w =>
      simp only [clean_values, hco] at h
      rcases List.mem_cons.mp h with h1 | h1
      · exact ⟨(k, v), List.mem_cons_self _ _, by rw [h1], by rw [hco, h1]⟩
      · obtain ⟨q', hq1, hq2, hq3⟩ := ih h1
        exact ⟨q', List.mem_cons_of_mem _ hq1, hq2, hq3⟩
    | none =>
      simp only [clean_values, hco] at h
      obtain ⟨q', hq1, hq2, hq3⟩ := ih h
      exact ⟨q', List.mem_cons_of_mem _ hq1, hq2, hq3⟩

theorem str_mk_bracket_allowed (c : Char) (r : List Char)
    (hc : c = '[' ∨ c = '{') :
    allowedValue (JVal.str (String.mk (c :: r))) = true := by
  have hlc : Char.toLower c = c := by rcases hc with h | h <;> (subst h; decide)
  have hcn : c ≠ 'n' := by rcases hc with h | h <;> (subst h; decide)
  have h1 : (String.mk (c :: r) != "") = true := by
    rw [bne_iff_ne]
    intro h
    have hd := congrArg String.data h
    rw [data_mk, show ("" : String).data = [] from rfl] at hd
    cases hd
  have hlow : pyLower (String.mk (c :: r)) = String.mk (c :: r.map Char.toLower) := by
    unfold pyLower
    rw [data_mk]
    simp [hlc]
  have h2 : (pyLower (String.mk (c :: r)) != "null") = true := by
    rw [bne_iff_ne, hlow]
    intro h
    have hd := congrArg String.data h
    rw [data_mk, show ("null" : String).data = ['n', 'u', 'l', 'l'] from rfl] at hd
    exact hcn (List.cons_eq_cons.mp hd).1
  have h3 : (pyLower (String.mk (c :: r)) != "none") = true := by
    rw [bne_iff_ne, hlow]
    intro h
    have hd := congrArg String.data h
    rw [data_mk, show ("none" : String).data = ['n', 'o', 'n', 'e'] from rfl] at hd
    exact hcn (List.cons_eq_cons.mp hd).1
  have h4 : bracketHead (String.mk (c :: r)) = true := by
    unfold bracketHead
    rw [data_mk]
    rcases hc with h | h <;> (subst h; simp)
  simp only [allowedValue, h1, h2, h3, h4, Bool.or_true, Bool.and_true, Bool.true_and]

theorem cleanOne_allowedValue (k : String) (v w : JVal)
    (h1 : k ≠ "_last_update_ts") (h2 : k ≠ "_last_user_text")
    (h : cleanOne k v = some w) : allowedValue w = true := by
  unfold cleanOne at h
  rw [if_neg (by tauto)] at h
  cases v with
  | null => simp at h
  | int n =>
    simp only [Option.some.injEq] at h
    rw [← h]; rfl
  | bool b =>
    simp only [Option.some.injEq] at h
    rw [← h]; rfl
  | str s =>
    simp only [] at h
    by_cases he : pyStripS s = ""
    · rw [if_pos he] at h; simp at h
    · rw [if_neg he] at h
      by_cases hn : pyLower (pyStripS s) = "null" ∨ pyLower (pyStripS s) = "none"
      · rw [if_pos hn] at h; simp at h
      · rw [if_neg hn] at h
        push_neg at hn
        simp only [Option.some.injEq] at h
        rw [← h]
        by_cases hl : 20 < (pyStripS s).length
        · rw [if_pos hl]
          have hdl : (pyStripS s).data.length = (pyStripS s).length := rfl
          have hlen : (pyTrunc20 (pyStripS s)).length = 20 := by
            unfold pyTrunc20
            rw [length_mk_str, List.length_take]
            omega
          have b1 : (pyTrunc20 (pyStripS s) != "") = true := by
            rw [bne_iff_ne]
            intro hcon
            have := congrArg String.length hcon
            rw [hlen, show ("" : String).length = 0 from rfl] at this
            omega
          have blow : ∀ t : String, t.length = 4 →
              (pyLower (pyTrunc20 (pyStripS s)) != t) = true := by
            intro t ht
            rw [bne_iff_ne]
            intro hcon
            have := congrArg String.length hcon
            rw [length_pyLower, hlen, ht] at this
            omega
          have b4 : decide ((pyTrunc20 (pyStripS s)).length ≤ 20) = true := by
            rw [hlen]; decide
          simp only [allowedValue, b1, blow "null" (by rfl), blow "none" (by rfl),
            b4, Bool.true_or, Bool.and_true, Bool.true_and]
        · rw [if_neg hl]
          have b1 : (pyStripS s != "") = true := by rw [bne_iff_ne]; exact he
          have b2 : (pyLower (pyStripS s) != "null") = true := by
            rw [bne_iff_ne]; exact hn.1
          have b3 : (pyLower (pyStripS s) != "none") = true := by
            rw [bne_iff_ne]; exact hn.2
          have b4 : decide ((pyStripS s).length ≤ 20) = true := by
            simp only [decide_eq_true_eq]
            omega
          simp only [allowedValue, b1, b2, b3, b4, Bool.true_or, Bool.and_true,
            Bool.true_and]
  | arr vs =>
    simp only [Option.some.injEq] at h
    rw [← h]
    have hr : ∃ r, pyRepr (JVal.arr vs) = '[' :: r := by
      cases vs with
      | nil => exact ⟨[']'], by simp [pyRepr]⟩
      | cons a l => exact ⟨pyRepr a ++ (pyReprRestE l ++ [']']), by simp [pyRepr]⟩
    obtain ⟨r, hr⟩ := hr
    have hps : pyStr (JVal.arr vs) = String.mk ('[' :: r) := by
      unfold pyStr
      rw [hr]
    rw [hps]
    exact str_mk_bracket_allowed _ _ (Or.inl rfl)
  | obj kvs =>
    simp only [Option.some.injEq] at h
    rw [← h]
    have hr : ∃ r, pyRepr (JVal.obj kvs) = '{' :: r := by
      cases kvs with
      | nil => exact ⟨['}'], by simp [pyRepr]⟩
      | cons a l => exact ⟨pyReprMember a ++ (pyReprRestM l ++ ['}']), by simp [pyRepr]⟩
    obtain ⟨r, hr⟩ := hr
    have hps : pyStr (JVal.obj kvs) = String.mk ('{' :: r) := by
      unfold pyStr
      rw [hr]
    rw [hps]
    exact str_mk_bracket_allowed _ _ (Or.inr rfl)

theorem infer_updates_cases (ut : String) (now : Int) (raw : String) :
    infer_updates ut now raw = heartbeat_fallback ut now ∨
    ∃ d0, parse_json_obj raw = some d0 ∧
      infer_updates ut now raw =
        clean_values ((merge_heartbeat d0 ut now).filter
          (fun p => ALLOWED_KEYS.contains p.1)) := by
  by_cases hraw : raw = ""
  · left; simp [infer_updates, hraw]
  · cases hp : parse_json_obj raw with
    | none => left; simp [infer_updates, hraw, hp]
    | some d0 =>
      by_cases hie : (clean_values ((merge_heartbeat d0 ut now).filter
          (fun p => ALLOWED_KEYS.contains p.1))).isEmpty
      · left
        simp only [infer_updates, if_neg hraw, hp]
        exact if_pos hie
      · right
        refine ⟨d0, rfl, ?_⟩
        simp only [infer_updates, if_neg hraw, hp]
        exact if_neg hie

/-- The 50-character `risk` string of Scenario 3. -/
def riskFifty : String := "xxxxxxxxxxxxxxxxxxxxxxxxxxxxxxxxxxxxxxxxxxxxxxxxxx"

/-- The raw model reply of Scenario 3. -/
def scenario3raw : String :=
  "\x7b\"emotion\":\"\",\"risk\":\"xxxxxxxxxxxxxxxxxxxxxxxxxxxxxxxxxxxxxxxxxxxxxxxxxx\",\"bogus_key\":\"y\"\x7d"

/-- C7 (amended): every patch key is allow-listed; under a non-heartbeat
key the value is never null, and a string value is non-empty, does not
spell `null`/`none`, and exceeds 20 characters only when it is the
untruncated stringification of a list or dict (bracket-headed); the two
heartbeat keys pass the response value through unchanged and are exempt.
Scenario 3 is the concrete third conjunct. -/
theorem c7_value_hygiene :
    (∀ (ut : String) (now : Int) (raw : String) (p : String × JVal),
      p ∈ infer_updates ut now raw → p.1 ∈ ALLOWED_KEYS) ∧
    (∀ (ut : String) (now : Int) (raw : String) (p : String × JVal),
      p ∈ infer_updates ut now raw →
      p.1 ≠ "_last_update_ts" → p.1 ≠ "_last_user_text" →
      allowedValue p.2 = true) ∧
    (∀ (ut : String) (now : Int),
      infer_updates ut now scenario3raw =
        [("risk", JVal.str "xxxxxxxxxxxxxxxxxxxx"),
         ("_last_update_ts", JVal.int now),
         ("_last_user_text", JVal.str ut)]) := by
  refine ⟨?_, ?_, fun ut now => rfl⟩
  · intro ut now raw p hp
    rcases infer_updates_cases ut now raw with h | ⟨d0, _, h⟩
    · rw [h] at hp
      simp only [heartbeat_fallback, List.mem_cons, List.mem_singleton] at hp
      rcases hp with h1 | h1 | h1
      · rw [h1]; simp [ALLOWED_KEYS]
      · rw [h1]; simp [ALLOWED_KEYS]
      · cases h1
    · rw [h] at hp
      obtain ⟨q, hq1, hq2, _⟩ := mem_clean_values _ _ hp
      have := List.mem_filter.mp hq1
      rw [← hq2]
      simpa using this.2
  · intro ut now raw p hp hk1 hk2
    rcases infer_updates_cases ut now raw with h | ⟨d0, _, h⟩
    · rw [h] at hp
      simp only [heartbeat_fallback, List.mem_cons, List.mem_singleton] at hp
      rcases hp with h1 | h1 | h1
      · exact absurd (congrArg Prod.fst h1) hk1
      · exact absurd (congrArg Prod.fst h1) hk2
      · cases h1
    · rw [h] at hp
      obtain ⟨q, _, hq2, hq3⟩ := mem_clean_values _ _ hp
      exact cleanOne_allowedValue q.1 q.2 p.2
        (by rw [hq2]; exact hk1) (by rw [hq2]; exact hk2) hq3

/-- Counterexample to C7 as stated: a reply that itself supplies the
heartbeat keys puts a null value and a 25-character string value into the
patch (heartbeat values pass through `_clean_values` unchecked). -/
theorem c7_value_hygiene_counterexample :
    infer_updates "u" 0
        "\x7b\"_last_update_ts\": null, \"_last_user_text\": \"aaaaaaaaaaaaaaaaaaaaaaaaa\"\x7d" =
      [("_last_update_ts", JVal.null),
       ("_last_user_text", JVal.str "aaaaaaaaaaaaaaaaaaaaaaaaa")] ∧
    (20 < ("aaaaaaaaaaaaaaaaaaaaaaaaa" : String).length ∧
      JVal.null ∈ (infer_updates "u" 0
        "\x7b\"_last_update_ts\": null, \"_last_user_text\": \"aaaaaaaaaaaaaaaaaaaaaaaaa\"\x7d").map
          Prod.snd) := by
  refine ⟨rfl, by decide, ?_⟩
  rw [show infer_updates "u" 0
      "\x7b\"_last_update_ts\": null, \"_last_user_text\": \"aaaaaaaaaaaaaaaaaaaaaaaaa\"\x7d" =
    [("_last_update_ts", JVal.null),
     ("_last_user_text", JVal.str "aaaaaaaaaaaaaaaaaaaaaaaaa")] from rfl]
  simp

/-- Witness for C7 at Scenario 3: the truncated `risk` value passes the
hygiene predicate and its key is allow-listed. -/
theorem c7_value_hygiene_witness :
    "risk" ∈ ALLOWED_KEYS ∧ allowedValue (JVal.str "xxxxxxxxxxxxxxxxxxxx") = true := by
  have hmem : ("risk", JVal.str "xxxxxxxxxxxxxxxxxxxx") ∈ infer_updates "u" 0 scenario3raw := by
    rw [c7_value_hygiene.2.2 "u" 0]
    simp
  exact ⟨c7_value_hygiene.1 "u" 0 scenario3raw _ hmem,
    c7_value_hygiene.2.1 "u" 0 scenario3raw _ hmem (by decide) (by decide)⟩

theorem merge_heartbeat_ts_absent (d0 : List (String × JVal)) (ut : String) (now : Int)
    (h : dget d0 "_last_update_ts" = none) :
    dget (merge_heartbeat d0 ut now) "_last_update_ts" = some (JVal.int now) := by
  unfold merge_heartbeat
  have h1 : ¬ (dget d0 "_last_update_ts").isSome = true := by simp [h]
  simp only [if_neg h1]
  have hd1 : dget (d0 ++ [("_last_update_ts", JVal.int now)]) "_last_update_ts" =
      some (JVal.int now) := by
    rw [dget_append_right _ _ _ h]; simp [dget]
  by_cases h2 : (dget (d0 ++ [("_last_update_ts", JVal.int now)]) "_last_user_text").isSome
  · rw [if_pos h2]; exact hd1
  · rw [if_neg h2]; exact dget_append_left _ _ _ _ hd1

theorem merge_heartbeat_text_absent (d0 : List (String × JVal)) (ut : String) (now : Int)
    (h : dget d0 "_last_user_text" = none) :
    dget (merge_heartbeat d0 ut now) "_last_user_text" = some (JVal.str ut) := by
  unfold merge_heartbeat
  by_cases h1 : (dget d0 "_last_update_ts").isSome
  · simp only [if_pos h1]
    have h2 : ¬ (dget d0 "_last_user_text").isSome = true := by simp [h]
    rw [if_neg h2, dget_append_right _ _ _ h]
    simp [dget]
  · simp only [if_neg h1]
    have hd1 : dget (d0 ++ [("_last_update_ts", JVal.int now)]) "_last_user_text" = none := by
      rw [dget_append_right _ _ _ h]
      simp [dget]
    have h2 : ¬ (dget (d0 ++ [("_last_update_ts", JVal.int now)])
        "_last_user_text").isSome = true := by
      simp [hd1]
    rw [if_neg h2, dget_append_right _ _ _ hd1]
    simp [dget]

theorem infer_updates_dget_heartbeat (ut : String) (now : Int) (raw : String)
    (d0 : List (String × JVal)) (k : String) (w : JVal)
    (hraw : raw ≠ "") (hp : parse_json_obj raw = some d0)
    (hk : k = "_last_update_ts" ∨ k = "_last_user_text")
    (hm : dget (merge_heartbeat d0 ut now) k = some w) :
    dget (infer_updates ut now raw) k = some w := by
  have hc := dget_heartbeat_cleaned _ k w hk hm
  have hnn := dget_ne_nil _ _ _ hc
  have hres : infer_updates ut now raw =
      clean_values ((merge_heartbeat d0 ut now).filter
        (fun p => ALLOWED_KEYS.contains p.1)) := by
    simp only [infer_updates, if_neg hraw, hp]
    exact if_neg (by simpa using hnn)
  rw [hres]
  exact hc

/-- C8 (amended): the heartbeat values in the patch are the integer
timestamp and the verbatim user text whenever the parsed response does
not itself supply those keys (or there is no parsed response at all);
response-supplied heartbeat values pass through unchanged instead. -/
theorem c8_heartbeat_values (ut : String) (now : Int) (raw : String) :
    ((∀ d0, parse_json_obj raw = some d0 → dget d0 "_last_update_ts" = none) →
      dget (infer_updates ut now raw) "_last_update_ts" = some (JVal.int now)) ∧
    ((∀ d0, parse_json_obj raw = some d0 → dget d0 "_last_user_text" = none) →
      dget (infer_updates ut now raw) "_last_user_text" = some (JVal.str ut)) := by
  by_cases hraw : raw = ""
  · constructor <;> (intro _; simp [infer_updates, hraw, heartbeat_fallback, dget])
  · cases hp : parse_json_obj raw with
    | none =>
      constructor <;> (intro _; simp [infer_updates, hraw, hp, heartbeat_fallback, dget])
    | some d0 =>
      constructor
      · intro habs
        exact infer_updates_dget_heartbeat ut now raw d0 _ _ hraw hp (Or.inl rfl)
          (merge_heartbeat_ts_absent d0 ut now (habs d0 rfl))
      · intro habs
        exact infer_updates_dget_heartbeat ut now raw d0 _ _ hraw hp (Or.inr rfl)
          (merge_heartbeat_text_absent d0 ut now (habs d0 rfl))

/-- Is the optional value an integer? -/
def isIntSome : Option JVal → Bool
  | some (.int _) => true
  | _ => false

/-- Counterexample to C8 as stated: a response that supplies both
heartbeat keys keeps its own values, so `_last_update_ts` is a string and
`_last_user_text` differs from the `user_text` argument. -/
theorem c8_heartbeat_values_counterexample :
    infer_updates "hello" 1700000000
        "\x7b\"_last_update_ts\": \"x\", \"_last_user_text\": \"y\"\x7d" =
      [("_last_update_ts", JVal.str "x"), ("_last_user_text", JVal.str "y")] ∧
    isIntSome (dget (infer_updates "hello" 1700000000
        "\x7b\"_last_update_ts\": \"x\", \"_last_user_text\": \"y\"\x7d") "_last_update_ts") = false ∧
    dget (infer_updates "hello" 1700000000
        "\x7b\"_last_update_ts\": \"x\", \"_last_user_text\": \"y\"\x7d") "_last_user_text" ≠
      some (JVal.str "hello") := by
  refine ⟨rfl, rfl, ?_⟩
  intro h
  rw [show dget (infer_updates "hello" 1700000000
      "\x7b\"_last_update_ts\": \"x\", \"_last_user_text\": \"y\"\x7d") "_last_user_text" =
    some (JVal.str "y") from rfl] at h
  simp at h

/-- Witness for C8 at a reply that supplies neither heartbeat key. -/
theorem c8_heartbeat_values_witness :
    dget (infer_updates "hey" 7 "\x7b\"emotion\": \"ok\"\x7d") "_last_update_ts" =
      some (JVal.int 7) ∧
    dget (infer_updates "hey" 7 "\x7b\"emotion\": \"ok\"\x7d") "_last_user_text" =
      some (JVal.str "hey") := by
  have hp : parse_json_obj "\x7b\"emotion\": \"ok\"\x7d" = some [("emotion", JVal.str "ok")] := rfl
  refine ⟨(c8_heartbeat_values "hey" 7 "\x7b\"emotion\": \"ok\"\x7d").1 ?_,
          (c8_heartbeat_values "hey" 7 "\x7b\"emotion\": \"ok\"\x7d").2 ?_⟩ <;>
    (intro d0 h
     rw [hp] at h
     rw [← Option.some.inj h]
     rfl)

/-- `_fallback_tree` from `perspective_generate_engine.py`: the hardcoded
three-node linear tree; `tree_id` and `generated_at` carry whatever
values the caller resolved. -/
def fallback_tree (tree_id ts : JVal) : JVal :=
  JVal.obj
    [("tree_id", tree_id),
     ("generated_at", ts),
     ("root_id", JVal.str "N0"),
     ("current_node_id", JVal.str "N0"),
     ("nodes", JVal.obj
       [("N0", JVal.obj
         [("id", JVal.str "N0"),
          ("title", JVal.str "先把主线捏出来"),
          ("user_viewpoint", JVal.str "你可能想聊点什么，但还没完全说清楚。"),
          ("our_viewpoint", JVal.str "我们先把‘你现在最想处理的那一件事’挑出来，再决定怎么聊。"),
          ("potential_need", JVal.arr [JVal.str "确定主线", JVal.str "有人接住"]),
          ("children", JVal.arr [JVal.str "N1"]),
          ("is_end", JVal.bool false)]),
        ("N1", JVal.obj
         [("id", JVal.str "N1"),
          ("title", JVal.str "拆一个最卡的点"),
          ("user_viewpoint", JVal.str "你开始说出困扰的细节，或者说出你真正的担心。"),
          ("our_viewpoint", JVal.str "我先帮你把最卡的那个点拆清楚：你在担心什么、你想要什么、你怕失去什么。"),
          ("potential_need", JVal.arr [JVal.str "缓解焦虑", JVal.str "获得清晰感"]),
          ("children", JVal.arr [JVal.str "N2"]),
          ("is_end", JVal.bool false)]),
        ("N2", JVal.obj
         [("id", JVal.str "N2"),
          ("title", JVal.str "给一个下一步"),
          ("user_viewpoint", JVal.str "你希望有个可执行的小动作，别只停在情绪里。"),
          ("our_viewpoint", JVal.str "我给你一个小到立刻能做的下一步：不求完美，只求开始动起来。"),
          ("potential_need", JVal.arr [JVal.str "行动建议", JVal.str "被陪着执行"]),
          ("children", JVal.arr []),
          ("is_end", JVal.bool true)])])]

/-- The per-node repair of `_normalize_and_validate`: coerce a non-dict
node to `{"id": nid}`, default-fill `id`, `title`, the viewpoint fields,
`potential_need` (replaced unless a non-empty list), `children` (emptied
unless a list) and `is_end`. -/
def repair_pn (b : List (String × JVal)) : List (String × JVal) :=
  match dget b "potential_need" with
  | some (JVal.arr (_ :: _)) => b
  | _ => dset b "potential_need"
      (JVal.arr [JVal.str "陪你理一理", JVal.str "确认你真正想要的"])

def repair_ch (b : List (String × JVal)) : List (String × JVal) :=
  match dget b "children" with
  | some (JVal.arr _) => b
  | _ => dset b "children" (JVal.arr [])

def repair_node (nid : String) (n : JVal) : List (String × JVal) :=
  let b0 := match n with
    | JVal.obj kvs => kvs
    | _ => [("id", JVal.str nid)]
  let b1 := dsetdefault b0 "id" (JVal.str nid)
  let b2 := dsetdefault b1 "title" (JVal.str "（待定）")
  let b3 := dsetdefault b2 "user_viewpoint" (JVal.str "（待定）")
  let b4 := dsetdefault b3 "our_viewpoint" (JVal.str "（待定）")
  dsetdefault (repair_ch (repair_pn b4)) "is_end" (JVal.bool false)

/-- Python `v in node_ids` on a set of string keys: lists and dicts are
unhashable and raise `TypeError`; any other JSON value is hashable but
only an equal string is a member. -/
def hashableKeyMem (v : JVal) (ks : List String) : Except String Bool :=
  match v with
  | JVal.arr _ => Except.error "TypeError: unhashable type: list"
  | JVal.obj _ => Except.error "TypeError: unhashable type: dict"
  | JVal.str s => Except.ok (ks.contains s)
  | _ => Except.ok false

/-- The list comprehension filtering one node's children to existing ids. -/
def filter_children (ks : List String) : List JVal → Except String (List JVal)
  | [] => Except.ok []
  | c :: rest =>
    match hashableKeyMem c ks with
    | Except.error e => Except.error e
    | Except.ok b =>
      match filter_children ks rest with
      | Except.error e => Except.error e
      | Except.ok r => Except.ok (if b then c :: r else r)

/-- `n.get("children") or []` on a repaired node (the repair pass has made
`children` a list by this point). -/
def node_children (n : JVal) : List JVal :=
  match n with
  | JVal.obj kvs =>
    match dget kvs "children" with
    | some (JVal.arr xs) => xs
    | _ => []
  | _ => []

/-- `n[k] = v` on a node value. -/
def node_set (n : JVal) (k : String) (v : JVal) : JVal :=
  match n with
  | JVal.obj kvs => JVal.obj (dset kvs k v)
  | _ => n

/-- The dangling-reference sweep over all nodes, in iteration order. -/
def filter_all_children (ks : List String) :
    List (String × JVal) → Except String (List (String × JVal))
  | [] => Except.ok []
  | (k, n) :: rest =>
    match filter_children ks (node_children n) with
    | Except.error e => Except.error e
    | Except.ok cs =>
      match filter_all_children ks rest with
      | Except.error e => Except.error e
      | Except.ok r => Except.ok ((k, node_set n "children" (JVal.arr cs)) :: r)

/-- The root-children patch: when the root node is truthy with falsy
`children`, the first key different from the root becomes its sole child
— unless that key is the empty string, which the `if alt:` truthiness
test treats as no candidate. -/
def patch_root (rootId : String) (ns : List (String × JVal)) : List (String × JVal) :=
  match dget ns rootId with
  | some root =>
    if truthy root && !truthyO (nget root "children") then
      match (dkeys ns).find? (fun k => k != rootId) with
      | some alt =>
        if alt = "" then ns
        else ns.map (fun p =>
          if p.1 = rootId then (p.1, node_set p.2 "children" (JVal.arr [JVal.str alt])) else p)
      | none => ns
    else ns
  | none => ns

def set_is_end (ns : List (String × JVal)) (k : String) : List (String × JVal) :=
  ns.map (fun p => if p.1 = k then (p.1, node_set p.2 "is_end" (JVal.bool true)) else p)

/-- The terminal-node guarantee: when no node has truthy `is_end`, mark
the first childless node — unless its key is the falsy empty string —
else the last node in iteration order. -/
def ensure_end (ns : List (String × JVal)) : List (String × JVal) :=
  if ns.any (fun p => truthyO (nget p.2 "is_end")) then ns
  else
    match ns.find? (fun p => !truthyO (nget p.2 "children")) with
    | some p =>
      if p.1 = "" then
        match (dkeys ns).getLast? with
        | some last => set_is_end ns last
        | none => ns
      else set_is_end ns p.1
    | none =>
      match (dkeys ns).getLast? with
      | some last => set_is_end ns last
      | none => ns

/-- Resolve `root_id`: an unhashable value raises `TypeError` at the
`not in nodes` test; a value that is no existing key is replaced by
`"N0"` when that key exists, else by the first key. -/
def resolve_root (rv : JVal) (ks : List String) : Except String String :=
  match rv with
  | JVal.arr _ => Except.error "TypeError: unhashable type: list"
  | JVal.obj _ => Except.error "TypeError: unhashable type: dict"
  | JVal.str s =>
    Except.ok (if ks.contains s then s
               else if ks.contains "N0" then "N0" else ks.headD "")
  | _ => Except.ok (if ks.contains "N0" then "N0" else ks.headD "")

/-- Resolve `current_node_id` analogously (falling back to the root id). -/
def resolve_current (cv : JVal) (ks : List String) (rootId : String) :
    Except String String :=
  match cv with
  | JVal.arr _ => Except.error "TypeError: unhashable type: list"
  | JVal.obj _ => Except.error "TypeError: unhashable type: dict"
  | JVal.str s => Except.ok (if ks.contains s then s else rootId)
  | _ => Except.ok rootId

/-- The four leading `setdefault` statements of `_normalize_and_validate`. -/
def fill_basic (kvs0 : List (String × JVal)) (fallback_ts fallback_tree_id : String) :
    List (String × JVal) :=
  let t1 := dsetdefault kvs0 "tree_id" (JVal.str fallback_tree_id)
  let t2 := dsetdefault t1 "generated_at" (JVal.str fallback_ts)
  let t3 := dsetdefault t2 "root_id" (JVal.str "N0")
  dsetdefault t3 "current_node_id" ((dget t3 "root_id").getD (JVal.str "N0"))

/-- `_normalize_and_validate` from `perspective_generate_engine.py`.
`none` models a `tree` argument that is not a dict (for instance
`_extract_json` returning `None`); an `Except.error` carries the
`TypeError` that the unguarded membership tests raise on unhashable
values from the model output. -/
def normalize_and_validate (tree : Option JVal) (fallback_ts fallback_tree_id : String) :
    Except String JVal :=
  match tree with
  | some (JVal.obj kvs0) =>
    let t4 := fill_basic kvs0 fallback_ts fallback_tree_id
    match dget t4 "nodes" with
    | some (JVal.obj ns) =>
      if ns.isEmpty then
        Except.ok (fallback_tree ((dget t4 "tree_id").getD JVal.null)
          ((dget t4 "generated_at").getD JVal.null))
      else
        match resolve_root ((dget t4 "root_id").getD JVal.null) (dkeys ns) with
        | Except.error e => Except.error e
        | Except.ok rootId =>
          let t5 := dset t4 "root_id" (JVal.str rootId)
          match resolve_current ((dget t5 "current_node_id").getD JVal.null)
              (dkeys ns) rootId with
          | Except.error e => Except.error e
          | Except.ok curId =>
            let t6 := dset t5 "current_node_id" (JVal.str curId)
            let ns1 := ns.map (fun p => (p.1, JVal.obj (repair_node p.1 p.2)))
            match filter_all_children (dkeys ns) ns1 with
            | Except.error e => Except.error e
            | Except.ok ns2 =>
              Except.ok (JVal.obj (dset t6 "nodes"
                (JVal.obj (ensure_end (patch_root rootId ns2)))))
    | _ =>
      Except.ok (fallback_tree ((dget t4 "tree_id").getD JVal.null)
        ((dget t4 "generated_at").getD JVal.null))
  | _ => Except.ok (fallback_tree (JVal.str fallback_tree_id) (JVal.str fallback_ts))

/-- `generate_tree` from the model reply onward: extract the JSON, then
validate; persistence does not alter the returned tree. -/
def generate_tree (reply : String) (ts tree_id : String) : Except String JVal :=
  normalize_and_validate (extract_json reply) ts tree_id

/-- `save_tree_to_file`: the disk write is an external effect, abstracted
by `diskOk`; a failure is caught and signalled only by an empty-string
return, and a non-dict tree is not written at all. -/
def save_tree_to_file (tree : JVal) (path : String) (diskOk : Bool) : String :=
  match tree with
  | JVal.obj _ => if diskOk then path else ""
  | _ => ""

theorem dget_dsetdefault_self (d : List (String × JVal)) (k : String) (v : JVal) :
    dget (dsetdefault d k v) k = some ((dget d k).getD v) := by
  cases h : dget d k with
  | none => rw [dget_dsetdefault_absent d k v h]; rfl
  | some w => rw [dget_dsetdefault_present d k v w h]; rfl

theorem dget_fill_basic_ne (kvs : List (String × JVal)) (fts fid : String) (k : String)
    (h1 : k ≠ "tree_id") (h2 : k ≠ "generated_at") (h3 : k ≠ "root_id")
    (h4 : k ≠ "current_node_id") :
    dget (fill_basic kvs fts fid) k = dget kvs k := by
  unfold fill_basic
  rw [dget_dsetdefault_ne _ _ _ _ h4, dget_dsetdefault_ne _ _ _ _ h3,
    dget_dsetdefault_ne _ _ _ _ h2, dget_dsetdefault_ne _ _ _ _ h1]

theorem dget_fill_basic_tree_id (kvs : List (String × JVal)) (fts fid : String) :
    dget (fill_basic kvs fts fid) "tree_id" =
      some ((dget kvs "tree_id").getD (JVal.str fid)) := by
  unfold fill_basic
  rw [dget_dsetdefault_ne _ _ _ _ (by decide), dget_dsetdefault_ne _ _ _ _ (by decide),
    dget_dsetdefault_ne _ _ _ _ (by decide), dget_dsetdefault_self]

theorem dget_fill_basic_generated_at (kvs : List (String × JVal)) (fts fid : String) :
    dget (fill_basic kvs fts fid) "generated_at" =
      some ((dget kvs "generated_at").getD (JVal.str fts)) := by
  unfold fill_basic
  rw [dget_dsetdefault_ne _ _ _ _ (by decide), dget_dsetdefault_ne _ _ _ _ (by decide),
    dget_dsetdefault_self, dget_dsetdefault_ne _ _ _ _ (by decide)]

/-- Is the `nodes` field missing, not a dict, or an empty dict? -/
def bad_nodes (kvs : List (String × JVal)) : Bool :=
  match dget kvs "nodes" with
  | some (JVal.obj (_ :: _)) => false
  | _ => true

/-- C4: a non-dict candidate gives the hardcoded fallback tree; so does a
missing, non-dict or empty `nodes` field (with the already-resolved
`tree_id`/`generated_at`); and `generate_tree` on a prose reply holding
no extractable JSON returns the fallback tree. -/
theorem c4_fallback :
    (∀ (t : Option JVal) (fts fid : String),
      (∀ kvs, t ≠ some (JVal.obj kvs)) →
      normalize_and_validate t fts fid =
        Except.ok (fallback_tree (JVal.str fid) (JVal.str fts))) ∧
    (∀ (kvs : List (String × JVal)) (fts fid : String),
      bad_nodes kvs = true →
      normalize_and_validate (some (JVal.obj kvs)) fts fid =
        Except.ok (fallback_tree ((dget kvs "tree_id").getD (JVal.str fid))
          ((dget kvs "generated_at").getD (JVal.str fts)))) ∧
    (∀ (fts fid : String),
      generate_tree "Sorry, I cannot produce a tree right now." fts fid =
        Except.ok (fallback_tree (JVal.str fid) (JVal.str fts))) := by
  refine ⟨?_, ?_, fun fts fid => rfl⟩
  · intro t fts fid h
    cases t with
    | none => rfl
    | some v =>
      cases v with
      | obj kvs => exact absurd rfl (h kvs)
      | null => rfl
      | bool b => rfl
      | int n => rfl
      | str s => rfl
      | arr l => rfl
  · intro kvs fts fid hb
    unfold bad_nodes at hb
    simp only [normalize_and_validate]
    rw [dget_fill_basic_ne kvs fts fid "nodes" (by decide) (by decide) (by decide) (by decide)]
    cases hn : dget kvs "nodes" with
    | none =>
      simp only [dget_fill_basic_tree_id, dget_fill_basic_generated_at, Option.getD_some]
    | some v =>
      cases v with
      | obj ns =>
        cases ns with
        | nil =>
          simp only [dget_fill_basic_tree_id, dget_fill_basic_generated_at,
            Option.getD_some, List.isEmpty_nil, if_true]
        | cons a l =>
          rw [hn] at hb
          exact Bool.noConfusion hb
      | null =>
        simp only [dget_fill_basic_tree_id, dget_fill_basic_generated_at, Option.getD_some]
      | bool b =>
        simp only [dget_fill_basic_tree_id, dget_fill_basic_generated_at, Option.getD_some]
      | int n =>
        simp only [dget_fill_basic_tree_id, dget_fill_basic_generated_at, Option.getD_some]
      | str s =>
        simp only [dget_fill_basic_tree_id, dget_fill_basic_generated_at, Option.getD_some]
      | arr l =>
        simp only [dget_fill_basic_tree_id, dget_fill_basic_generated_at, Option.getD_some]

/-- Witness for C4 at concrete inputs: a scalar candidate, a candidate
with an empty `nodes` dict (with its own `tree_id`), and the prose
scenario. -/
theorem c4_fallback_witness :
    normalize_and_validate (some (JVal.str "oops")) "t" "i" =
      Except.ok (fallback_tree (JVal.str "i") (JVal.str "t")) ∧
    normalize_and_validate (some (JVal.obj
        [("tree_id", JVal.str "T9"), ("nodes", JVal.obj [])])) "t" "i" =
      Except.ok (fallback_tree (JVal.str "T9") (JVal.str "t")) ∧
    generate_tree "Sorry, I cannot produce a tree right now." "t" "i" =
      Except.ok (fallback_tree (JVal.str "i") (JVal.str "t")) :=
  ⟨c4_fallback.1 (some (JVal.str "oops")) "t" "i" (fun kvs h => by cases h),
   c4_fallback.2.1 [("tree_id", JVal.str "T9"), ("nodes", JVal.obj [])] "t" "i" (by rfl),
   c4_fallback.2.2 "t" "i"⟩

/-- C5 is violated: `_normalize_and_validate` tests `tree["root_id"] not
in nodes` without guarding against unhashable values, so a model reply
whose `root_id` is a JSON array makes `generate_tree` raise `TypeError`
instead of repairing or falling back. -/
theorem c5_generate_tree_raises :
    generate_tree "\x7b\"root_id\": [], \"nodes\": \x7b\"N0\": \x7b\x7d\x7d\x7d" "t" "i" =
      Except.error "TypeError: unhashable type: list" := by rfl

theorem dget_mem (d : List (String × JVal)) (k : String) (v : JVal)
    (h : dget d k = some v) : (k, v) ∈ d := by
  induction d with
  | nil => simp [dget] at h
  | cons p rest ih =>
    obtain ⟨a, b⟩ := p
    by_cases hp : a = k
    · simp only [dget, hp, if_pos] at h
      simp only [Option.some.injEq] at h
      subst hp
      rw [← h]
      exact List.mem_cons_self _ _
    · simp [dget, hp] at h
      exact List.mem_cons_of_mem _ (ih h)

theorem mem_dkeys_exists (d : List (String × JVal)) (k : String)
    (h : k ∈ dkeys d) : ∃ v, dget d k = some v := by
  induction d with
  | nil => simp [dkeys] at h
  | cons p rest ih =>
    by_cases hp : p.1 = k
    · exact ⟨p.2, by simp [dget, hp]⟩
    · simp [dkeys] at h
      rcases h with h | h
      · exact absurd h.symm hp
      · obtain ⟨v, hv⟩ := ih (by simpa [dkeys] using h)
        exact ⟨v, by simp [dget, hp, hv]⟩

theorem headD_mem {α : Type} (l : List α) (x : α) (h : l ≠ []) : l.headD x ∈ l := by
  cases l with
  | nil => exact absurd rfl h
  | cons a rest => exact List.mem_cons_self a rest

theorem getLast?_mem' {α : Type} (l : List α) (a : α) (h : l.getLast? = some a) :
    a ∈ l := by
  induction l with
  | nil => simp at h
  | cons b rest ih =>
    cases rest with
    | nil =>
      simp [List.getLast?] at h
      simp [h]
    | cons c r2 =>
      rw [List.getLast?_cons_cons] at h
      exact List.mem_cons_of_mem _ (ih h)

theorem dget_map_update (ns : List (String × JVal)) (k0 : String) (f : JVal → JVal)
    (k : String) :
    dget (ns.map (fun p => if p.1 = k0 then (p.1, f p.2) else p)) k =
      (dget ns k).map (fun v => if k = k0 then f v else v) := by
  induction ns with
  | nil => simp [dget]
  | cons p rest ih =>
    by_cases hp : p.1 = k
    · by_cases h0 : p.1 = k0
      · have hkk : k = k0 := by rw [← hp, h0]
        simp [dget, hp, h0, hkk, List.map_cons]
      · have : ¬ k = k0 := by rw [← hp]; exact h0
        simp [dget, hp, h0, List.map_cons, this]
    · by_cases h0 : p.1 = k0
      · have hne : ¬ k0 = k := by rw [← h0]; exact hp
        simp [dget, hp, h0, List.map_cons, ih, hne]
      · simp [dget, hp, h0, List.map_cons, ih]

theorem dkeys_map_update (ns : List (String × JVal)) (k0 : String) (f : JVal → JVal) :
    dkeys (ns.map (fun p => if p.1 = k0 then (p.1, f p.2) else p)) = dkeys ns := by
  induction ns with
  | nil => rfl
  | cons p rest ih =>
    by_cases h0 : p.1 = k0 <;> simp [dkeys, h0, List.map_cons] <;>
      simpa [dkeys] using ih

/-- Structural facts every repaired node enjoys: it is a dict, it has an
`id` entry (so it is truthy), and its `children` value is a list. -/
def node_shape (n : JVal) : Prop :=
  (∃ kvs, n = JVal.obj kvs) ∧ (nget n "id").isSome ∧
    (∃ cs, nget n "children" = some (JVal.arr cs))

/-- All of the node's children references are existing keys. -/
def good_children (ks : List String) (p : String × JVal) : Prop :=
  ∀ c ∈ node_children p.2, ∃ s, c = JVal.str s ∧ s ∈ ks

theorem nget_obj (kvs : List (String × JVal)) (k : String) :
    nget (JVal.obj kvs) k = dget kvs k := rfl

theorem node_set_obj (kvs : List (String × JVal)) (k : String) (v : JVal) :
    node_set (JVal.obj kvs) k v = JVal.obj (dset kvs k v) := rfl

theorem dget_repair_pn_ne (b : List (String × JVal)) (k : String)
    (h : k ≠ "potential_need") : dget (repair_pn b) k = dget b k := by
  unfold repair_pn
  split
  · rfl
  · exact dget_dset_ne _ _ _ _ h

theorem dget_repair_ch_ne (b : List (String × JVal)) (k : String)
    (h : k ≠ "children") : dget (repair_ch b) k = dget b k := by
  unfold repair_ch
  split
  · rfl
  · exact dget_dset_ne _ _ _ _ h

theorem dget_repair_ch_children (b : List (String × JVal)) :
    ∃ cs, dget (repair_ch b) "children" = some (JVal.arr cs) := by
  unfold repair_ch
  split
  · next xs heq => exact ⟨xs, heq⟩
  · exact ⟨[], dget_dset_self _ _ _⟩

theorem repair_node_id (nid : String) (n : JVal) :
    (dget (repair_node nid n) "id").isSome := by
  unfold repair_node
  rw [dget_dsetdefault_ne _ _ _ _ (by decide),
    dget_repair_ch_ne _ _ (by decide), dget_repair_pn_ne _ _ (by decide),
    dget_dsetdefault_ne _ _ _ _ (by decide), dget_dsetdefault_ne _ _ _ _ (by decide),
    dget_dsetdefault_ne _ _ _ _ (by decide), dget_dsetdefault_self]
  rfl

theorem repair_node_children (nid : String) (n : JVal) :
    ∃ cs, dget (repair_node nid n) "children" = some (JVal.arr cs) := by
  unfold repair_node
  obtain ⟨cs, hcs⟩ := dget_repair_ch_children (repair_pn
    (dsetdefault (dsetdefault (dsetdefault (dsetdefault (match n with
      | JVal.obj kvs => kvs
      | _ => [("id", JVal.str nid)]) "id" (JVal.str nid)) "title"
      (JVal.str "（待定）")) "user_viewpoint" (JVal.str "（待定）")) "our_viewpoint"
      (JVal.str "（待定）")))
  refine ⟨cs, ?_⟩
  rw [dget_dsetdefault_ne _ _ _ _ (by decide)]
  exact hcs

theorem repair_node_shape (nid : String) (n : JVal) :
    node_shape (JVal.obj (repair_node nid n)) := by
  refine ⟨⟨_, rfl⟩, ?_, ?_⟩
  · simpa only [nget_obj] using repair_node_id nid n
  · simpa only [nget_obj] using repair_node_children nid n

theorem filter_children_sub (ks : List String) (cs : List JVal) (r : List JVal)
    (h : filter_children ks cs = Except.ok r) :
    ∀ c ∈ r, ∃ s, c = JVal.str s ∧ s ∈ ks := by
  induction cs generalizing r with
  | nil =>
    simp only [filter_children, Except.ok.injEq] at h
    subst h
    intro c hc
    simp at hc
  | cons c rest ih =>
    simp only [filter_children] at h
    cases hm : hashableKeyMem c ks with
    | error e => rw [hm] at h; cases h
    | ok b =>
      rw [hm] at h
      cases hr : filter_children ks rest with
      | error e => rw [hr] at h; cases h
      | ok r' =>
        rw [hr] at h
        simp only [Except.ok.injEq] at h
        subst h
        intro x hx
        cases b with
        | false =>
          simp at hx
          exact ih r' hr x hx
        | true =>
          simp at hx
          rcases hx with h1 | h1
          · subst h1
            cases x with
            | str s =>
              refine ⟨s, rfl, ?_⟩
              simp only [hashableKeyMem, Except.ok.injEq] at hm
              simpa using hm
            | null => simp [hashableKeyMem] at hm
            | bool b2 => simp [hashableKeyMem] at hm
            | int n2 => simp [hashableKeyMem] at hm
            | arr l2 => simp [hashableKeyMem] at hm
            | obj l2 => simp [hashableKeyMem] at hm
          · exact ih r' hr x h1

theorem fac_keys (ks : List String) (l : List (String × JVal))
    (r : List (String × JVal)) (h : filter_all_children ks l = Except.ok r) :
    dkeys r = dkeys l := by
  induction l generalizing r with
  | nil =>
    simp only [filter_all_children, Except.ok.injEq] at h
    subst h
    rfl
  | cons q rest ih =>
    obtain ⟨k, n⟩ := q
    simp only [filter_all_children] at h
    cases hf : filter_children ks (node_children n) with
    | error e => rw [hf] at h; cases h
    | ok cs =>
      rw [hf] at h
      cases hr : filter_all_children ks rest with
      | error e => rw [hr] at h; cases h
      | ok r' =>
        rw [hr] at h
        simp only [Except.ok.injEq] at h
        subst h
        have hk := ih r' hr
        simp only [dkeys] at hk
        simp [dkeys, hk]

theorem fac_mem (ks : List String) (l : List (String × JVal))
    (r : List (String × JVal)) (h : filter_all_children ks l = Except.ok r) :
    ∀ p ∈ r, ∃ q, q ∈ l ∧ p.1 = q.1 ∧
      ∃ cs, filter_children ks (node_children q.2) = Except.ok cs ∧
        p.2 = node_set q.2 "children" (JVal.arr cs) := by
  induction l generalizing r with
  | nil =>
    simp only [filter_all_children, Except.ok.injEq] at h
    subst h
    intro p hp
    simp at hp
  | cons q rest ih =>
    obtain ⟨k, n⟩ := q
    simp only [filter_all_children] at h
    cases hf : filter_children ks (node_children n) with
    | error e => rw [hf] at h; cases h
    | ok cs =>
      rw [hf] at h
      cases hr : filter_all_children ks rest with
      | error e => rw [hr] at h; cases h
      | ok r' =>
        rw [hr] at h
        simp only [Except.ok.injEq] at h
        subst h
        intro p hp
        rcases List.mem_cons.mp hp with h1 | h1
        · subst h1
          exact ⟨(k, n), List.mem_cons_self _ _, rfl, cs, hf, rfl⟩
        · obtain ⟨q', hq1, hq2, cs', hcs1, hcs2⟩ := ih r' hr p h1
          exact ⟨q', List.mem_cons_of_mem _ hq1, hq2, cs', hcs1, hcs2⟩

theorem node_children_node_set_children (n : JVal) (cs : List JVal) :
    node_children (node_set n "children" (JVal.arr cs)) = cs ∨
    node_children (node_set n "children" (JVal.arr cs)) = [] := by
  cases n with
  | obj kvs =>
    left
    simp [node_set, node_children, dget_dset_self]
  | null => right; rfl
  | bool b => right; rfl
  | int m => right; rfl
  | str s => right; rfl
  | arr l => right; rfl

theorem node_children_node_set_ne (n : JVal) (k : String) (v : JVal)
    (h : k ≠ "children") :
    node_children (node_set n k v) = node_children n := by
  cases n with
  | obj kvs =>
    simp only [node_set, node_children]
    rw [dget_dset_ne _ _ _ _ (Ne.symm h)]
  | null => rfl
  | bool b => rfl
  | int m => rfl
  | str s => rfl
  | arr l => rfl

theorem node_shape_node_set_children (n : JVal) (cs : List JVal)
    (h : node_shape n) :
    node_shape (node_set n "children" (JVal.arr cs)) := by
  obtain ⟨⟨kvs, hkvs⟩, hid, _⟩ := h
  subst hkvs
  refine ⟨⟨_, rfl⟩, ?_, ⟨cs, ?_⟩⟩
  · simp only [node_set_obj, nget_obj]
    rw [dget_dset_ne _ _ _ _ (by decide)]
    exact hid
  · simp [node_set_obj, nget_obj, dget_dset_self]

theorem patch_root_cases (rid : String) (ns : List (String × JVal)) :
    patch_root rid ns = ns ∨
    ∃ alt, (dkeys ns).find? (fun k => k != rid) = some alt ∧ alt ≠ "" ∧
      patch_root rid ns = ns.map (fun p =>
        if p.1 = rid then (p.1, node_set p.2 "children" (JVal.arr [JVal.str alt]))
        else p) := by
  unfold patch_root
  cases hroot : dget ns rid with
  | none => left; rfl
  | some root =>
    dsimp only
    by_cases hcond : (truthy root && !truthyO (nget root "children")) = true
    · rw [if_pos hcond]
      cases hfind : (dkeys ns).find? (fun k => k != rid) with
      | none => left; rfl
      | some alt =>
        dsimp only
        by_cases halt : alt = ""
        · rw [if_pos halt]; left; rfl
        · rw [if_neg halt]; right; exact ⟨alt, rfl, halt, rfl⟩
    · rw [if_neg hcond]; left; rfl

theorem ensure_end_cases (ns : List (String × JVal)) :
    ensure_end ns = ns ∨
    ∃ k0, k0 ∈ dkeys ns ∧ ensure_end ns = set_is_end ns k0 := by
  unfold ensure_end
  by_cases hany : (ns.any (fun p => truthyO (nget p.2 "is_end"))) = true
  · rw [if_pos hany]; left; rfl
  · rw [if_neg hany]
    cases hfind : ns.find? (fun p => !truthyO (nget p.2 "children")) with
    | some p =>
      dsimp only
      by_cases hps : p.1 = ""
      · rw [if_pos hps]
        cases hlast : (dkeys ns).getLast? with
        | none => left; rfl
        | some last => right; exact ⟨last, getLast?_mem' _ _ hlast, rfl⟩
      · rw [if_neg hps]
        right
        refine ⟨p.1, ?_, rfl⟩
        exact List.mem_map_of_mem Prod.fst (List.mem_of_find?_eq_some hfind)
    | none =>
      cases hlast : (dkeys ns).getLast? with
      | none => left; rfl
      | some last => right; exact ⟨last, getLast?_mem' _ _ hlast, rfl⟩

theorem set_is_end_eq_map (ns : List (String × JVal)) (k0 : String) :
    set_is_end ns k0 = ns.map (fun p =>
      if p.1 = k0 then (p.1, node_set p.2 "is_end" (JVal.bool true)) else p) := rfl

theorem getLast?_ne_none {α : Type} (l : List α) (h : l ≠ []) :
    ∃ a, l.getLast? = some a := by
  induction l with
  | nil => exact absurd rfl h
  | cons b rest ih =>
    cases rest with
    | nil => exact ⟨b, rfl⟩
    | cons c r2 =>
      obtain ⟨a, ha⟩ := ih (by simp)
      exact ⟨a, by rw [List.getLast?_cons_cons]; exact ha⟩

theorem ensure_end_has_end (ns : List (String × JVal)) (hne : ns ≠ [])
    (hobj : ∀ p ∈ ns, ∃ kvs, p.2 = JVal.obj kvs) :
    ∃ p ∈ ensure_end ns, truthyO (nget p.2 "is_end") = true := by
  have hmark : ∀ k0, k0 ∈ dkeys ns →
      ∃ p ∈ set_is_end ns k0, truthyO (nget p.2 "is_end") = true := by
    intro k0 hk0
    obtain ⟨v, hv⟩ := mem_dkeys_exists ns k0 hk0
    have hvmem := dget_mem _ _ _ hv
    obtain ⟨kvs, hkvs⟩ := hobj (k0, v) hvmem
    simp only [] at hkvs
    have hmem := List.mem_map_of_mem (fun p : String × JVal =>
      if p.1 = k0 then (p.1, node_set p.2 "is_end" (JVal.bool true)) else p) hvmem
    simp only [if_pos] at hmem
    refine ⟨(k0, node_set v "is_end" (JVal.bool true)), ?_, ?_⟩
    · rw [set_is_end_eq_map]
      exact hmem
    · simp only []
      rw [hkvs, node_set_obj, nget_obj, dget_dset_self]
      rfl
  unfold ensure_end
  by_cases hany : (ns.any (fun p => truthyO (nget p.2 "is_end"))) = true
  · rw [if_pos hany]
    obtain ⟨p, hp, hpt⟩ := List.any_eq_true.mp hany
    exact ⟨p, hp, hpt⟩
  · rw [if_neg hany]
    have hdk : dkeys ns ≠ [] := by
      cases ns with
      | nil => exact absurd rfl hne
      | cons a l => simp [dkeys]
    cases hfind : ns.find? (fun p => !truthyO (nget p.2 "children")) with
    | some p =>
      dsimp only
      by_cases hps : p.1 = ""
      · rw [if_pos hps]
        obtain ⟨last, hlast⟩ := getLast?_ne_none _ hdk
        rw [hlast]
        exact hmark last (getLast?_mem' _ _ hlast)
      · rw [if_neg hps]
        exact hmark p.1
          (List.mem_map_of_mem Prod.fst (List.mem_of_find?_eq_some hfind))
    | none =>
      obtain ⟨last, hlast⟩ := getLast?_ne_none _ hdk
      rw [hlast]
      exact hmark last (getLast?_mem' _ _ hlast)

theorem node_children_of_shape (n : JVal) (kvs : List (String × JVal)) (cs : List JVal)
    (hkvs : n = JVal.obj kvs) (hcs : nget n "children" = some (JVal.arr cs)) :
    node_children n = cs := by
  subst hkvs
  rw [nget_obj] at hcs
  simp [node_children, hcs]

theorem patch_root_root_children (rid : String) (ns : List (String × JVal))
    (hshape : ∀ p ∈ ns, node_shape p.2) (hrid : rid ∈ dkeys ns) :
    ∀ alt, (dkeys ns).find? (fun k => k != rid) = some alt → alt ≠ "" →
      ∃ rn, dget (patch_root rid ns) rid = some rn ∧ node_children rn ≠ [] := by
  intro alt hfind halt
  obtain ⟨root, hroot⟩ := mem_dkeys_exists ns rid hrid
  obtain ⟨⟨kvs, hkvs⟩, hid, cs, hcs⟩ := hshape (rid, root) (dget_mem _ _ _ hroot)
  simp only [] at hkvs hid hcs
  have hch : node_children root = cs := node_children_of_shape root kvs cs hkvs hcs
  by_cases htrch : truthyO (nget root "children") = true
  · -- root already has truthy (non-empty) children; the patch is skipped
    have hcond : ¬ (truthy root && !truthyO (nget root "children")) = true := by
      simp [htrch]
    unfold patch_root
    rw [hroot]
    dsimp only
    rw [if_neg hcond]
    refine ⟨root, hroot, ?_⟩
    rw [hch]
    rw [hcs] at htrch
    simp only [truthyO, truthy] at htrch
    intro h0
    rw [h0] at htrch
    simp at htrch
  · -- children are empty; the alt child is attached
    have htr : truthy root = true := by
      rw [hkvs]
      cases kvs with
      | nil =>
        rw [hkvs] at hid
        simp [nget_obj, dget] at hid
      | cons a l => simp [truthy]
    have hcond : (truthy root && !truthyO (nget root "children")) = true := by
      simp [htr, htrch]
    unfold patch_root
    rw [hroot]
    dsimp only
    rw [if_pos hcond, hfind]
    dsimp only
    rw [if_neg halt,
      dget_map_update ns rid (fun v => node_set v "children" (JVal.arr [JVal.str alt])) rid,
      hroot]
    refine ⟨node_set root "children" (JVal.arr [JVal.str alt]), by simp, ?_⟩
    rw [hkvs, node_set_obj]
    simp [node_children, dget_dset_self]

theorem ensure_end_dget_children (ns : List (String × JVal)) (k : String) (rn : JVal)
    (h : dget ns k = some rn) :
    ∃ rn', dget (ensure_end ns) k = some rn' ∧ node_children rn' = node_children rn := by
  rcases ensure_end_cases ns with he | ⟨k0, _, he⟩
  · exact ⟨rn, by rw [he]; exact h, rfl⟩
  · rw [he, set_is_end_eq_map,
      dget_map_update ns k0 (fun v => node_set v "is_end" (JVal.bool true)) k, h]
    by_cases hk : k = k0
    · exact ⟨node_set rn "is_end" (JVal.bool true), by simp [hk],
        node_children_node_set_ne rn "is_end" (JVal.bool true) (by decide)⟩
    · exact ⟨rn, by simp [hk], rfl⟩

theorem ensure_end_keys (ns : List (String × JVal)) :
    dkeys (ensure_end ns) = dkeys ns := by
  rcases ensure_end_cases ns with he | ⟨k0, _, he⟩
  · rw [he]
  · rw [he, set_is_end_eq_map,
      dkeys_map_update ns k0 (fun v => node_set v "is_end" (JVal.bool true))]

theorem patch_root_keys (rid : String) (ns : List (String × JVal)) :
    dkeys (patch_root rid ns) = dkeys ns := by
  rcases patch_root_cases rid ns with he | ⟨alt, _, _, he⟩
  · rw [he]
  · rw [he, dkeys_map_update ns rid
      (fun v => node_set v "children" (JVal.arr [JVal.str alt]))]

theorem ensure_end_good (ns : List (String × JVal)) (ks : List String)
    (h : ∀ p ∈ ns, good_children ks p) :
    ∀ p ∈ ensure_end ns, good_children ks p := by
  rcases ensure_end_cases ns with he | ⟨k0, _, he⟩
  · rw [he]; exact h
  · rw [he, set_is_end_eq_map]
    intro p hp
    obtain ⟨q, hq, hfq⟩ := List.mem_map.mp hp
    by_cases hqk : q.1 = k0
    · rw [if_pos hqk] at hfq
      intro c hc
      rw [← hfq] at hc
      simp only [] at hc
      rw [node_children_node_set_ne q.2 "is_end" (JVal.bool true) (by decide)] at hc
      exact h q hq c hc
    · rw [if_neg hqk] at hfq
      rw [← hfq]
      exact h q hq

theorem patch_root_good (rid : String) (ns : List (String × JVal))
    (h : ∀ p ∈ ns, good_children (dkeys ns) p) :
    ∀ p ∈ patch_root rid ns, good_children (dkeys ns) p := by
  rcases patch_root_cases rid ns with he | ⟨alt, hfind, _, he⟩
  · rw [he]; exact h
  · rw [he]
    intro p hp
    obtain ⟨q, hq, hfq⟩ := List.mem_map.mp hp
    by_cases hqk : q.1 = rid
    · rw [if_pos hqk] at hfq
      intro c hc
      rw [← hfq] at hc
      simp only [] at hc
      rcases node_children_node_set_children q.2 [JVal.str alt] with hnc | hnc
      · rw [hnc] at hc
        simp only [List.mem_singleton] at hc
        subst hc
        exact ⟨alt, rfl, List.mem_of_find?_eq_some hfind⟩
      · rw [hnc] at hc
        simp at hc
    · rw [if_neg hqk] at hfq
      rw [← hfq]
      exact h q hq

theorem ensure_end_obj (ns : List (String × JVal))
    (h : ∀ p ∈ ns, ∃ kvs, p.2 = JVal.obj kvs) :
    ∀ p ∈ ensure_end ns, ∃ kvs, p.2 = JVal.obj kvs := by
  rcases ensure_end_cases ns with he | ⟨k0, _, he⟩
  · rw [he]; exact h
  · rw [he, set_is_end_eq_map]
    intro p hp
    obtain ⟨q, hq, hfq⟩ := List.mem_map.mp hp
    obtain ⟨kvs, hkvs⟩ := h q hq
    by_cases hqk : q.1 = k0
    · rw [if_pos hqk] at hfq
      rw [← hfq]
      simp only []
      rw [hkvs, node_set_obj]
      exact ⟨_, rfl⟩
    · rw [if_neg hqk] at hfq
      rw [← hfq]
      exact ⟨kvs, hkvs⟩

theorem patch_root_obj (rid : String) (ns : List (String × JVal))
    (h : ∀ p ∈ ns, ∃ kvs, p.2 = JVal.obj kvs) :
    ∀ p ∈ patch_root rid ns, ∃ kvs, p.2 = JVal.obj kvs := by
  rcases patch_root_cases rid ns with he | ⟨alt, _, _, he⟩
  · rw [he]; exact h
  · rw [he]
    intro p hp
    obtain ⟨q, hq, hfq⟩ := List.mem_map.mp hp
    obtain ⟨kvs, hkvs⟩ := h q hq
    by_cases hqk : q.1 = rid
    · rw [if_pos hqk] at hfq
      rw [← hfq]
      simp only []
      rw [hkvs, node_set_obj]
      exact ⟨_, rfl⟩
    · rw [if_neg hqk] at hfq
      rw [← hfq]
      exact ⟨kvs, hkvs⟩

theorem fac_good (ks : List String) (l r : List (String × JVal))
    (h : filter_all_children ks l = Except.ok r) :
    ∀ p ∈ r, good_children ks p := by
  intro p hp
  obtain ⟨q, _, _, cs, hcs, hp2⟩ := fac_mem ks l r h p hp
  intro c hc
  rw [hp2] at hc
  rcases node_children_node_set_children q.2 cs with hnc | hnc
  · rw [hnc] at hc
    exact filter_children_sub ks _ cs hcs c hc
  · rw [hnc] at hc
    simp at hc

theorem fac_shape (ks : List String) (l r : List (String × JVal))
    (h : filter_all_children ks l = Except.ok r)
    (hl : ∀ p ∈ l, node_shape p.2) :
    ∀ p ∈ r, node_shape p.2 := by
  intro p hp
  obtain ⟨q, hq, _, cs, _, hp2⟩ := fac_mem ks l r h p hp
  rw [hp2]
  exact node_shape_node_set_children q.2 cs (hl q hq)

theorem resolve_root_mem (rv : JVal) (ks : List String) (r : String)
    (hne : ks ≠ []) (h : resolve_root rv ks = Except.ok r) : r ∈ ks := by
  have hbranch : ∀ x : String,
      (if ks.contains "N0" then "N0" else ks.headD "") = x → x ∈ ks := by
    intro x hx
    by_cases hc : ks.contains "N0" = true
    · rw [if_pos hc] at hx
      rw [← hx]
      simpa using hc
    · rw [if_neg hc] at hx
      rw [← hx]
      exact headD_mem ks "" hne
  unfold resolve_root at h
  cases rv with
  | arr l => cases h
  | obj l => cases h
  | str s =>
    simp only [Except.ok.injEq] at h
    by_cases hc : ks.contains s = true
    · rw [if_pos hc] at h
      rw [← h]
      simpa using hc
    · rw [if_neg hc] at h
      exact hbranch r h
  | null =>
    simp only [Except.ok.injEq] at h
    exact hbranch r h
  | bool b =>
    simp only [Except.ok.injEq] at h
    exact hbranch r h
  | int n =>
    simp only [Except.ok.injEq] at h
    exact hbranch r h

theorem resolve_current_mem (cv : JVal) (ks : List String) (rootId : String)
    (r : String) (hroot : rootId ∈ ks)
    (h : resolve_current cv ks rootId = Except.ok r) : r ∈ ks := by
  unfold resolve_current at h
  cases cv with
  | arr l => cases h
  | obj l => cases h
  | str s =>
    simp only [Except.ok.injEq] at h
    by_cases hc : ks.contains s = true
    · rw [if_pos hc] at h
      rw [← h]
      simpa using hc
    · rw [if_neg hc] at h
      rw [← h]
      exact hroot
  | null =>
    simp only [Except.ok.injEq] at h
    rw [← h]; exact hroot
  | bool b =>
    simp only [Except.ok.injEq] at h
    rw [← h]; exact hroot
  | int n =>
    simp only [Except.ok.injEq] at h
    rw [← h]; exact hroot

theorem dkeys_map_repair (ns : List (String × JVal)) :
    dkeys (ns.map (fun p => (p.1, JVal.obj (repair_node p.1 p.2)))) = dkeys ns := by
  induction ns with
  | nil => rfl
  | cons p rest ih => simp [dkeys] at ih ⊢

/-- The structural invariant of a validated tree: root and current ids
are string keys of the node map, every children reference is an existing
key, some node has a truthy `is_end`, and the root has a child whenever
the first key other than the root id is a non-empty string. -/
def tree_invariant (out : JVal) : Prop :=
  ∃ ns rootId curId,
    nget out "root_id" = some (JVal.str rootId) ∧
    nget out "current_node_id" = some (JVal.str curId) ∧
    nget out "nodes" = some (JVal.obj ns) ∧
    rootId ∈ dkeys ns ∧ curId ∈ dkeys ns ∧
    (∀ p ∈ ns, good_children (dkeys ns) p) ∧
    (∃ p ∈ ns, truthyO (nget p.2 "is_end") = true) ∧
    (∀ alt, (dkeys ns).find? (fun k => k != rootId) = some alt → alt ≠ "" →
      ∃ rn, dget ns rootId = some rn ∧ node_children rn ≠ [])

theorem fallback_tree_invariant (tid ts : JVal) :
    tree_invariant (fallback_tree tid ts) := by
  refine ⟨_, "N0", "N0", rfl, rfl, rfl, by decide, by decide, ?_, ?_, ?_⟩
  · intro p hp
    simp only [List.mem_cons, List.mem_singleton] at hp
    rcases hp with rfl | rfl | rfl | h
    · intro c hc
      simp [node_children, dget] at hc
      exact ⟨"N1", hc, by decide⟩
    · intro c hc
      simp [node_children, dget] at hc
      exact ⟨"N2", hc, by decide⟩
    · intro c hc
      simp [node_children, dget] at hc
    · cases h
  · refine ⟨("N2", JVal.obj
      [("id", JVal.str "N2"),
       ("title", JVal.str "给一个下一步"),
       ("user_viewpoint", JVal.str "你希望有个可执行的小动作，别只停在情绪里。"),
       ("our_viewpoint", JVal.str "我给你一个小到立刻能做的下一步：不求完美，只求开始动起来。"),
       ("potential_need", JVal.arr [JVal.str "行动建议", JVal.str "被陪着执行"]),
       ("children", JVal.arr []),
       ("is_end", JVal.bool true)]), by simp, rfl⟩
  · intro alt _ _
    refine ⟨_, rfl, ?_⟩
    simp [node_children, dget]

/-- C1 (amended): whenever the validator returns a tree (it can instead
raise `TypeError`, see C5), the tree satisfies: `root_id` and
`current_node_id` are keys of `nodes`; every id in any node's children
list is a key of `nodes`; some node has a truthy `is_end` (not
necessarily the boolean `true`); and the root's children list is
non-empty whenever the first key different from the root id is a
non-empty string (the `if alt:` truthiness test skips an empty-string
candidate). -/
theorem c1_tree_invariant (t : Option JVal) (fts fid : String) (out : JVal)
    (h : normalize_and_validate t fts fid = Except.ok out) : tree_invariant out := by
  cases t with
  | none =>
    simp only [normalize_and_validate, Except.ok.injEq] at h
    rw [← h]
    exact fallback_tree_invariant _ _
  | some v =>
    cases v with
    | null =>
      simp only [normalize_and_validate, Except.ok.injEq] at h
      rw [← h]; exact fallback_tree_invariant _ _
    | bool b =>
      simp only [normalize_and_validate, Except.ok.injEq] at h
      rw [← h]; exact fallback_tree_invariant _ _
    | int n =>
      simp only [normalize_and_validate, Except.ok.injEq] at h
      rw [← h]; exact fallback_tree_invariant _ _
    | str s =>
      simp only [normalize_and_validate, Except.ok.injEq] at h
      rw [← h]; exact fallback_tree_invariant _ _
    | arr l =>
      simp only [normalize_and_validate, Except.ok.injEq] at h
      rw [← h]; exact fallback_tree_invariant _ _
    | obj kvs0 =>
      simp only [normalize_and_validate] at h
      cases hn : dget (fill_basic kvs0 fts fid) "nodes" with
      | none =>
        rw [hn] at h
        dsimp only at h
        simp only [Except.ok.injEq] at h
        rw [← h]; exact fallback_tree_invariant _ _
      | some v =>
        rw [hn] at h
        cases v with
        | null =>
          dsimp only at h
          simp only [Except.ok.injEq] at h
          rw [← h]; exact fallback_tree_invariant _ _
        | bool b =>
          dsimp only at h
          simp only [Except.ok.injEq] at h
          rw [← h]; exact fallback_tree_invariant _ _
        | int n =>
          dsimp only at h
          simp only [Except.ok.injEq] at h
          rw [← h]; exact fallback_tree_invariant _ _
        | str s =>
          dsimp only at h
          simp only [Except.ok.injEq] at h
          rw [← h]; exact fallback_tree_invariant _ _
        | arr l =>
          dsimp only at h
          simp only [Except.ok.injEq] at h
          rw [← h]; exact fallback_tree_invariant _ _
        | obj ns =>
          dsimp only at h
          by_cases hemp : ns.isEmpty = true
          · rw [if_pos hemp] at h
            simp only [Except.ok.injEq] at h
            rw [← h]; exact fallback_tree_invariant _ _
          · rw [if_neg hemp] at h
            have hne : ns ≠ [] := by
              intro h0
              subst h0
              exact hemp rfl
            have hdkne : dkeys ns ≠ [] := by
              cases ns with
              | nil => exact absurd rfl hne
              | cons a l => simp [dkeys]
            cases hroot : resolve_root
                ((dget (fill_basic kvs0 fts fid) "root_id").getD JVal.null)
                (dkeys ns) with
            | error e =>
              rw [hroot] at h
              cases h
            | ok rootId =>
              rw [hroot] at h
              dsimp only at h
              cases hcur : resolve_current
                  ((dget (dset (fill_basic kvs0 fts fid) "root_id"
                    (JVal.str rootId)) "current_node_id").getD JVal.null)
                  (dkeys ns) rootId with
              | error e =>
                rw [hcur] at h
                cases h
              | ok curId =>
                rw [hcur] at h
                dsimp only at h
                cases hfac : filter_all_children (dkeys ns)
                    (ns.map (fun p => (p.1, JVal.obj (repair_node p.1 p.2)))) with
                | error e =>
                  rw [hfac] at h
                  cases h
                | ok ns2 =>
                  rw [hfac] at h
                  dsimp only at h
                  simp only [Except.ok.injEq] at h
                  rw [← h]
                  have hridKS : rootId ∈ dkeys ns :=
                    resolve_root_mem _ _ _ hdkne hroot
                  have hcurKS : curId ∈ dkeys ns :=
                    resolve_current_mem _ _ _ _ hridKS hcur
                  have hKS2 : dkeys ns2 = dkeys ns :=
                    (fac_keys _ _ _ hfac).trans (dkeys_map_repair ns)
                  have hshape1 : ∀ p ∈ (ns.map (fun p =>
                      (p.1, JVal.obj (repair_node p.1 p.2)))), node_shape p.2 := by
                    intro p hp
                    obtain ⟨q, _, hfq⟩ := List.mem_map.mp hp
                    rw [← hfq]
                    exact repair_node_shape q.1 q.2
                  have hshape2 : ∀ p ∈ ns2, node_shape p.2 :=
                    fac_shape _ _ _ hfac hshape1
                  have hgood2 : ∀ p ∈ ns2, good_children (dkeys ns) p :=
                    fac_good _ _ _ hfac
                  have hgood2' : ∀ p ∈ ns2, good_children (dkeys ns2) p := by
                    intro p hp
                    rw [hKS2]
                    exact hgood2 p hp
                  have hk3 : dkeys (patch_root rootId ns2) = dkeys ns :=
                    (patch_root_keys rootId ns2).trans hKS2
                  have hk4 : dkeys (ensure_end (patch_root rootId ns2)) = dkeys ns :=
                    (ensure_end_keys (patch_root rootId ns2)).trans hk3
                  have hobj2 : ∀ p ∈ ns2, ∃ kvs, p.2 = JVal.obj kvs :=
                    fun p hp => (hshape2 p hp).1
                  have hobj3 := patch_root_obj rootId ns2 hobj2
                  have hne3 : patch_root rootId ns2 ≠ [] := by
                    intro h0
                    rw [h0] at hk3
                    exact hdkne (by simpa [dkeys] using hk3.symm)
                  have hend := ensure_end_has_end (patch_root rootId ns2) hne3 hobj3
                  have hgood3 : ∀ p ∈ patch_root rootId ns2,
                      good_children (dkeys ns) p := by
                    intro p hp
                    rw [← hKS2]
                    exact patch_root_good rootId ns2 hgood2' p hp
                  have hgood4 := ensure_end_good (patch_root rootId ns2)
                    (dkeys ns) hgood3
                  refine ⟨ensure_end (patch_root rootId ns2), rootId, curId,
                    ?_, ?_, ?_, ?_, ?_, ?_, hend, ?_⟩
                  · rw [nget_obj, dget_dset_ne _ _ _ _ (by decide),
                      dget_dset_ne _ _ _ _ (by decide), dget_dset_self]
                  · rw [nget_obj, dget_dset_ne _ _ _ _ (by decide), dget_dset_self]
                  · rw [nget_obj, dget_dset_self]
                  · rw [hk4]; exact hridKS
                  · rw [hk4]; exact hcurKS
                  · intro p hp
                    rw [hk4]
                    exact hgood4 p hp
                  · intro alt halt haltne
                    rw [hk4, ← hKS2] at halt
                    obtain ⟨rn, hrn, hrnne⟩ := patch_root_root_children rootId ns2
                      hshape2 (by rw [hKS2]; exact hridKS) alt halt haltne
                    obtain ⟨rn', hrn', heq⟩ := ensure_end_dget_children
                      (patch_root rootId ns2) rootId rn hrn
                    exact ⟨rn', hrn', by rw [heq]; exact hrnne⟩

/-- Does some node of the tree carry the boolean `true` as `is_end`? -/
def has_true_end (out : JVal) : Bool :=
  match nget out "nodes" with
  | some (JVal.obj ns) => ns.any (fun p =>
      match nget p.2 "is_end" with
      | some (JVal.bool true) => true
      | _ => false)
  | _ => false

def nodes_count (out : JVal) : Nat :=
  match nget out "nodes" with
  | some (JVal.obj ns) => ns.length
  | _ => 0

def root_children_empty (out : JVal) : Bool :=
  match nget out "root_id" with
  | some (JVal.str r) =>
    match nget out "nodes" with
    | some (JVal.obj ns) =>
      match dget ns r with
      | some rn => (node_children rn).isEmpty
      | none => false
    | _ => false
  | _ => false

/-- Counterexample to C1 as stated: a candidate whose root carries the
truthy string `"yes"` as `is_end` and whose only other node key is the
empty string is returned with no node having `is_end = true` and with an
empty root children list despite two nodes (the `any(bool(...))` test
accepts any truthy `is_end`, and the `if alt:` test drops the
empty-string candidate child). -/
theorem c1_tree_invariant_counterexample :
    ((normalize_and_validate (some (JVal.obj [("nodes", JVal.obj
        [("N0", JVal.obj [("is_end", JVal.str "yes")]),
         ("", JVal.obj [])])])) "t" "i").map (fun out =>
      (has_true_end out, nodes_count out, root_children_empty out))) =
    Except.ok (false, 2, true) := by rfl

/-- Witness for C1 at a candidate with a dangling child reference: the
repaired tree satisfies the invariant. -/
theorem c1_tree_invariant_witness :
    tree_invariant (JVal.obj
      [("nodes", JVal.obj
        [("N0", JVal.obj
          [("children", JVal.arr [JVal.str "N1"]),
           ("id", JVal.str "N0"),
           ("title", JVal.str "（待定）"),
           ("user_viewpoint", JVal.str "（待定）"),
           ("our_viewpoint", JVal.str "（待定）"),
           ("potential_need", JVal.arr [JVal.str "陪你理一理", JVal.str "确认你真正想要的"]),
           ("is_end", JVal.bool false)]),
         ("N1", JVal.obj
          [("id", JVal.str "N1"),
           ("title", JVal.str "（待定）"),
           ("user_viewpoint", JVal.str "（待定）"),
           ("our_viewpoint", JVal.str "（待定）"),
           ("potential_need", JVal.arr [JVal.str "陪你理一理", JVal.str "确认你真正想要的"]),
           ("children", JVal.arr []),
           ("is_end", JVal.bool true)])]),
       ("tree_id", JVal.str "i"),
       ("generated_at", JVal.str "t"),
       ("root_id", JVal.str "N0"),
       ("current_node_id", JVal.str "N0")]) :=
  c1_tree_invariant
    (some (JVal.obj [("nodes", JVal.obj
      [("N0", JVal.obj [("children", JVal.arr [JVal.str "N1", JVal.str "N9"])]),
       ("N1", JVal.obj [])])]))
    "t" "i" _ (by rfl)

/-- A character the compact serialiser may emit verbatim inside a string
literal: no raw control characters (strict `json.loads` rejects those). -/
def goodStrChar (c : Char) : Bool := 32 ≤ c.toNat

mutual

/-- Well-formedness making a value round-trippable: strings free of
control characters and objects free of duplicate keys — both automatic
for values denoting real Python data. -/
def wfJ : JVal → Bool
  | .null => true
  | .bool _ => true
  | .int _ => true
  | .str s => s.data.all goodStrChar
  | .arr vs => wfElems vs
  | .obj kvs => wfMembers kvs

def wfElems : List JVal → Bool
  | [] => true
  | v :: vs => wfJ v && wfElems vs

def wfMembers : List (String × JVal) → Bool
  | [] => true
  | p :: kvs => p.1.data.all goodStrChar && !(kvs.map Prod.fst).contains p.1 &&
      wfJ p.2 && wfMembers kvs

end

/-- What may legally follow a serialised value inside a document: the
end, or a separator/closer. -/
def restOk (l : List Char) : Prop :=
  match l with
  | [] => True
  | c :: _ => c = ',' ∨ c = '}' ∨ c = ']'

theorem escChar_qc : escChar qc = some qc := by decide

theorem serStrChar_qc : serStrChar qc = [bsl, qc] := by decide

theorem serStrChar_bsl : serStrChar bsl = [bsl, bsl] := by decide

theorem serStrChar_plain (c : Char) (hq : c ≠ qc) (hb : c ≠ bsl) :
    serStrChar c = [c] := by
  simp [serStrChar, hq, hb]

theorem escChar_bsl : escChar bsl = some bsl := by decide

theorem parseStrBody_ser (l : List Char) (rest : List Char)
    (h : l.all goodStrChar = true) : ∀ acc,
    parseStrBody (serStrChars l ++ (qc :: rest)) acc =
      some (String.mk (acc.reverse ++ l), rest) := by
  induction l with
  | nil =>
    intro acc
    simp only [serStrChars, List.nil_append]
    rw [parseStrBody.eq_def]
    dsimp only
    rw [if_pos rfl]
    simp
  | cons c l' ih =>
    intro acc
    simp only [List.all_cons, Bool.and_eq_true] at h
    by_cases hq : c = qc
    · subst hq
      simp only [serStrChars, serStrChar_qc, List.cons_append,
        List.append_assoc, List.singleton_append]
      rw [parseStrBody.eq_def]
      dsimp only
      rw [if_neg (show ¬ bsl = qc from by decide), if_pos (show bsl = bsl from rfl)]
      rw [escChar_qc]
      dsimp only
      simp only [List.nil_append]
      rw [ih h.2 (qc :: acc)]
      simp
    · by_cases hb : c = bsl
      · subst hb
        simp only [serStrChars, serStrChar_bsl, List.cons_append,
          List.append_assoc, List.singleton_append]
        rw [parseStrBody.eq_def]
        dsimp only
        rw [if_neg (show ¬ bsl = qc from by decide), if_pos (show bsl = bsl from rfl)]
        rw [escChar_bsl]
        dsimp only
        simp only [List.nil_append]
        rw [ih h.2 (bsl :: acc)]
        simp
      · simp only [serStrChars, serStrChar_plain c hq hb,
          List.cons_append, List.singleton_append, List.nil_append]
        rw [parseStrBody.eq_def]
        dsimp only
        rw [if_neg hq, if_neg hb, if_neg (by
          have := h.1
          simp only [goodStrChar, decide_eq_true_eq] at this
          omega)]
        rw [ih h.2 (c :: acc)]
        simp

theorem digitChar10_digit (n : Nat) (h : n < 10) :
    isDigitCh (digitChar10 n) = true := by
  interval_cases n <;> decide

theorem digitChar10_val (n : Nat) (h : n < 10) :
    digitVal (digitChar10 n) = n := by
  interval_cases n <;> decide

theorem digitChar10_ne_zero (n : Nat) (h1 : 0 < n) (h2 : n < 10) :
    ¬ digitChar10 n = '0' := by
  interval_cases n <;> decide

theorem digit_ne_dash (c : Char) (h : isDigitCh c = true) : ¬ c = '-' := by
  intro hc
  subst hc
  exact absurd h (by decide)

/-- No digit follows a separator/closer or the end of input. -/
theorem restOk_head_not_digit (l : List Char) (h : restOk l) :
    ∀ c, l.head? = some c → isDigitCh c = false := by
  intro c hc
  cases l with
  | nil => exact absurd hc (by simp)
  | cons d r =>
    injection hc with hc
    subst hc
    rcases h with h | h | h <;> (subst h; decide)

theorem parseDigits_stop (l : List Char) (acc : Nat)
    (h : ∀ c, l.head? = some c → isDigitCh c = false) :
    parseDigits l acc = (acc, l) := by
  cases l with
  | nil => rfl
  | cons c r =>
    rw [parseDigits.eq_def]
    dsimp only
    rw [if_neg (by rw [h c rfl]; exact Bool.false_ne_true)]

theorem parseDigits_serNat (n : Nat) : ∀ acc rest,
    parseDigits (serNat n ++ rest) acc =
      parseDigits rest (acc * 10 ^ (serNat n).length + n) := by
  induction n using Nat.strong_induction_on with
  | _ n ih =>
    intro acc rest
    by_cases h : n < 10
    · rw [serNat, dif_pos h]
      simp only [List.singleton_append, List.length_singleton, pow_one]
      rw [parseDigits.eq_def]
      dsimp only
      rw [if_pos (digitChar10_digit n h), digitChar10_val n h]
    · rw [serNat, dif_neg h]
      have hdiv : n / 10 < n := Nat.div_lt_self (by omega) (by omega)
      rw [List.append_assoc, ih (n / 10) hdiv acc ([digitChar10 (n % 10)] ++ rest)]
      simp only [List.singleton_append]
      rw [parseDigits.eq_def]
      dsimp only
      rw [if_pos (digitChar10_digit (n % 10) (Nat.mod_lt n (by omega))),
        digitChar10_val (n % 10) (Nat.mod_lt n (by omega))]
      have hlen : (serNat (n / 10) ++ [digitChar10 (n % 10)]).length =
          (serNat (n / 10)).length + 1 := by
        simp
      rw [hlen]
      have harith : (acc * 10 ^ (serNat (n / 10)).length + n / 10) * 10 + n % 10 =
          acc * 10 ^ ((serNat (n / 10)).length + 1) + n := by
        rw [pow_succ]
        have := Nat.div_add_mod n 10
        ring_nf
        omega
      rw [harith]

theorem serNat_head (n : Nat) :
    ∃ c cs, serNat n = c :: cs ∧ isDigitCh c = true ∧ (0 < n → ¬ c = '0') := by
  induction n using Nat.strong_induction_on with
  | _ n ih =>
    by_cases h : n < 10
    · refine ⟨digitChar10 n, [], by rw [serNat, dif_pos h], digitChar10_digit n h, ?_⟩
      intro h0
      exact digitChar10_ne_zero n h0 h
    · obtain ⟨c, cs, hser, hdig, hz⟩ := ih (n / 10) (Nat.div_lt_self (by omega) (by omega))
      refine ⟨c, cs ++ [digitChar10 (n % 10)], ?_, hdig, ?_⟩
      · rw [serNat, dif_neg h, hser]
        simp
      · intro _
        exact hz (by omega)

theorem mkIntResult_restOk (neg : Bool) (m : Nat) (rest : List Char)
    (h : restOk rest) :
    mkIntResult neg m rest =
      some (JVal.int (if neg then -(m : Int) else (m : Int)), rest) := by
  cases rest with
  | nil => rfl
  | cons c r =>
    rcases h with h | h | h <;>
      (subst h; rw [mkIntResult]; rfl)

theorem parseDigits_serNat_stop (m : Nat) (rest : List Char) (h : restOk rest)
    (c : Char) (cs : List Char) (hser : serNat m = c :: cs)
    (hdig : isDigitCh c = true) :
    parseDigits (cs ++ rest) (digitVal c) = (m, rest) := by
  have h1 := parseDigits_serNat m 0 rest
  rw [hser, List.cons_append] at h1
  nth_rewrite 1 [parseDigits.eq_def] at h1
  dsimp only at h1
  rw [if_pos hdig] at h1
  simp only [Nat.zero_mul, Nat.zero_add] at h1
  rw [parseDigits_stop rest m (restOk_head_not_digit rest h)] at h1
  exact h1

/-- Round trip for integer literals: the serialiser's output parses back to
the same integer whenever the following text starts with a separator. -/
theorem parseNumber_serInt (n : Int) (rest : List Char) (h : restOk rest) :
    parseNumber (serInt n ++ rest) = some (JVal.int n, rest) := by
  rcases lt_trichotomy n 0 with hn | hn | hn
  · have hm : 0 < (-n).toNat := by omega
    obtain ⟨c, cs, hser, hdig, hz⟩ := serNat_head (-n).toNat
    have hc0 : ¬ c = '0' := hz hm
    rw [serInt, if_pos hn, List.cons_append, parseNumber.eq_def]
    dsimp only
    rw [if_pos rfl]
    rw [hser, List.cons_append]
    dsimp only
    rw [if_neg hc0, if_pos hdig]
    rw [parseDigits_serNat_stop (-n).toNat rest h c cs hser hdig]
    rw [mkIntResult_restOk true (-n).toNat rest h]
    have h2 : -(((-n).toNat : Nat) : Int) = n := by omega
    simp only [reduceIte]
    rw [h2]
  · subst hn
    rw [serInt, if_neg (by decide : ¬ (0 : Int) < 0)]
    rw [serNat, dif_pos (by decide : (0 : Int).toNat < 10)]
    cases rest with
    | nil => rfl
    | cons d r =>
      rcases h with h | h | h <;> (subst h; rfl)
  · have hm : 0 < n.toNat := by omega
    obtain ⟨c, cs, hser, hdig, hz⟩ := serNat_head n.toNat
    have hc0 : ¬ c = '0' := hz hm
    rw [serInt, if_neg (by omega : ¬ n < 0)]
    rw [hser, List.cons_append, parseNumber.eq_def]
    dsimp only
    rw [if_neg (digit_ne_dash c hdig)]
    dsimp only
    rw [if_neg hc0, if_pos hdig]
    rw [parseDigits_serNat_stop n.toNat rest h c cs hser hdig]
    rw [mkIntResult_restOk false n.toNat rest h]
    have h2 : ((n.toNat : Nat) : Int) = n := by omega
    rw [h2]
    rfl

theorem skipWs_cons (c : Char) (r : List Char) (h : isJsonWs c = false) :
    skipWs (c :: r) = c :: r := by
  simp [skipWs, List.dropWhile_cons, h]

theorem dropWhile_of_head (p : Char → Bool) (l : List Char)
    (h : ∀ c, l.head? = some c → p c = false) : l.dropWhile p = l := by
  cases l with
  | nil => rfl
  | cons c r => simp [List.dropWhile_cons, h c rfl]

/-- `strip()` leaves a string alone when neither end is whitespace. -/
theorem pyStrip_eq (l : List Char)
    (h1 : ∀ c, l.head? = some c → isPySpace c = false)
    (h2 : ∀ c, l.getLast? = some c → isPySpace c = false) :
    pyStrip l = l := by
  rw [pyStrip, dropWhile_of_head _ _ h1]
  rw [dropWhile_of_head _ _ (by
    intro c hc
    rw [List.head?_reverse] at hc
    exact h2 c hc)]
  exact List.reverse_reverse l

theorem dset_append (d : List (String × JVal)) (k : String) (v : JVal)
    (h : dget d k = none) : dset d k v = d ++ [(k, v)] := by
  induction d with
  | nil => rfl
  | cons p rest ih =>
    rw [dget] at h
    by_cases hk : p.1 = k
    · rw [if_pos hk] at h
      exact absurd h (by simp)
    · rw [if_neg hk] at h
      rw [dset, if_neg hk, ih h, List.cons_append]

theorem dget_pair_ne (k q : String) (v : JVal) (h : ¬ k = q) :
    dget [(k, v)] q = none := by
  simp [dget, h]

theorem sizeV_pos (v : JVal) : 1 ≤ sizeV v := by
  cases v <;> simp [sizeV] <;> omega

/-- The ten decimal digit characters. -/
def decDigits : List Char := "0123456789".data

theorem digitChar10_mem (n : Nat) (h : n < 10) :
    digitChar10 n ∈ decDigits := by
  interval_cases n <;> decide

theorem serNat_head_mem (n : Nat) :
    ∃ c cs, serNat n = c :: cs ∧
      c ∈ decDigits := by
  induction n using Nat.strong_induction_on with
  | _ n ih =>
    by_cases h : n < 10
    · exact ⟨digitChar10 n, [], by rw [serNat, dif_pos h], digitChar10_mem n h⟩
    · obtain ⟨c, cs, hser, hmem⟩ := ih (n / 10) (Nat.div_lt_self (by omega) (by omega))
      refine ⟨c, cs ++ [digitChar10 (n % 10)], ?_, hmem⟩
      rw [serNat, dif_neg h, hser]
      simp

theorem serInt_head (n : Int) :
    ∃ c cs, serInt n = c :: cs ∧
      (c = '-' ∨ c ∈ decDigits) := by
  rw [serInt]
  by_cases h : n < 0
  · exact ⟨'-', serNat (-n).toNat, by rw [if_pos h], Or.inl rfl⟩
  · obtain ⟨c, cs, hser, hmem⟩ := serNat_head_mem n.toNat
    exact ⟨c, cs, by rw [if_neg h, hser], Or.inr hmem⟩

/-- The first character of a serialised number is never one of the
structural or keyword-leading characters `json.loads` dispatches on. -/
theorem dashDigit_props (c : Char)
    (h : c = '-' ∨ c ∈ decDigits) :
    isJsonWs c = false ∧ ¬ c = '{' ∧ ¬ c = '[' ∧ ¬ c = qc ∧ ¬ c = 'n' ∧
      ¬ c = 't' ∧ ¬ c = 'f' ∧ ¬ c = ']' ∧ ¬ c = '}' ∧
      (c = '-' ∨ isDigitCh c = true) := by
  rcases h with h | h
  · subst h; decide
  · fin_cases h <;> decide

/-- The first character of any serialised value: never whitespace and
never a closer. -/
theorem serVal_head (v : JVal) :
    ∃ c cs, serVal v = c :: cs ∧ isJsonWs c = false ∧ ¬ c = ']' ∧ ¬ c = '}' := by
  cases v with
  | null => exact ⟨'n', ['u', 'l', 'l'], by simp [serVal], by decide, by decide, by decide⟩
  | bool b =>
    cases b with
    | true => exact ⟨'t', ['r', 'u', 'e'], by simp [serVal], by decide, by decide, by decide⟩
    | false =>
      exact ⟨'f', ['a', 'l', 's', 'e'], by simp [serVal], by decide, by decide, by decide⟩
  | int n =>
    obtain ⟨c, cs, hser, hmem⟩ := serInt_head n
    obtain ⟨hws, _, _, _, _, _, _, hrb, hcb, _⟩ := dashDigit_props c hmem
    exact ⟨c, cs, by rw [show serVal (JVal.int n) = serInt n from by simp [serVal], hser],
      hws, hrb, hcb⟩
  | str s =>
    exact ⟨qc, serStrChars s.data ++ [qc], by simp [serVal], by decide, by decide, by decide⟩
  | arr vs =>
    cases vs with
    | nil => exact ⟨'[', [']'], by simp [serVal], by decide, by decide, by decide⟩
    | cons v vs =>
      exact ⟨'[', serVal v ++ (serElemsRest vs ++ [']']), by simp [serVal],
        by decide, by decide, by decide⟩
  | obj kvs =>
    cases kvs with
    | nil => exact ⟨'{', ['}'], by rw [serVal], by decide, by decide, by decide⟩
    | cons p kvs =>
      obtain ⟨k, w⟩ := p
      exact ⟨'{', serMember k w ++ (serMembersRest kvs ++ ['}']), by
        rw [serVal], by decide, by decide, by decide⟩

/-- A serialised object is a brace-delimited chunk. -/
theorem serVal_obj_shape (kvs : List (String × JVal)) :
    ∃ mid, serVal (JVal.obj kvs) = '{' :: (mid ++ ['}']) := by
  cases kvs with
  | nil => exact ⟨[], by rw [serVal]; rfl⟩
  | cons p kvs =>
    obtain ⟨k, w⟩ := p
    refine ⟨serMember k w ++ serMembersRest kvs, ?_⟩
    rw [serVal]
    simp

mutual

/-- The serialised form is at least as long as the fuel the parser needs. -/
theorem sizeV_le : ∀ v : JVal, sizeV v ≤ (serVal v).length
  | .null => by rw [serVal]; simp [sizeV]
  | .bool true => by rw [serVal]; simp [sizeV]
  | .bool false => by rw [serVal]; simp [sizeV]
  | .int n => by
    obtain ⟨c, cs, hser, _⟩ := serInt_head n
    rw [serVal, hser]
    simp [sizeV]
  | .str s => by rw [serVal]; simp [sizeV]
  | .arr [] => by rw [serVal]; simp [sizeV, sizeElems]
  | .arr (v :: vs) => by
    have h1 := sizeV_le v
    have h2 := sizeElems_le vs
    rw [serVal]
    simp only [sizeV, sizeElems, List.length_cons, List.length_append,
      List.length_singleton]
    omega
  | .obj [] => by rw [serVal]; simp [sizeV, sizeMembers]
  | .obj ((k, v) :: kvs) => by
    have h1 := sizeV_le v
    have h2 := sizeMembers_le kvs
    rw [serVal]
    simp only [sizeV, sizeMembers, serMember, List.length_cons, List.length_append,
      List.length_singleton]
    omega

theorem sizeElems_le : ∀ vs : List JVal, sizeElems vs ≤ (serElemsRest vs).length
  | [] => by simp [sizeElems, serElemsRest]
  | v :: vs => by
    have h1 := sizeV_le v
    have h2 := sizeElems_le vs
    rw [serElemsRest]
    simp only [sizeElems, List.length_cons, List.length_append]
    omega

theorem sizeMembers_le :
    ∀ kvs : List (String × JVal), sizeMembers kvs ≤ (serMembersRest kvs).length
  | [] => by simp [sizeMembers, serMembersRest]
  | (k, v) :: kvs => by
    have h1 := sizeV_le v
    have h2 := sizeMembers_le kvs
    rw [serMembersRest]
    simp only [sizeMembers, serMember, List.length_cons, List.length_append,
      List.length_singleton]
    omega

end

theorem parseVal_null_step (f : Nat) (rest : List Char) :
    parseVal (f + 1) (serVal JVal.null ++ rest) = some (JVal.null, rest) := by
  rw [serVal]
  rw [parseVal]
  simp only [List.cons_append, List.nil_append]
  rw [show skipWs ('n' :: 'u' :: 'l' :: 'l' :: rest) = 'n' :: 'u' :: 'l' :: 'l' :: rest
    from skipWs_cons _ _ (by decide)]
  simp
  intro h
  exact absurd h (by decide)

theorem parseVal_true_step (f : Nat) (rest : List Char) :
    parseVal (f + 1) (serVal (JVal.bool true) ++ rest) = some (JVal.bool true, rest) := by
  rw [serVal]
  rw [parseVal]
  simp only [List.cons_append, List.nil_append]
  rw [show skipWs ('t' :: 'r' :: 'u' :: 'e' :: rest) = 't' :: 'r' :: 'u' :: 'e' :: rest
    from skipWs_cons _ _ (by decide)]
  simp
  intro h
  exact absurd h (by decide)

theorem parseVal_false_step (f : Nat) (rest : List Char) :
    parseVal (f + 1) (serVal (JVal.bool false) ++ rest) = some (JVal.bool false, rest) := by
  rw [serVal]
  rw [parseVal]
  simp only [List.cons_append, List.nil_append]
  rw [show skipWs ('f' :: 'a' :: 'l' :: 's' :: 'e' :: rest) = 'f' :: 'a' :: 'l' :: 's' :: 'e' :: rest
    from skipWs_cons _ _ (by decide)]
  simp
  intro h
  exact absurd h (by decide)

theorem mk_data (s : String) : String.mk s.data = s := rfl

theorem parseVal_str_step (f : Nat) (s : String) (rest : List Char)
    (hwf : s.data.all goodStrChar = true) :
    parseVal (f + 1) (serVal (JVal.str s) ++ rest) = some (JVal.str s, rest) := by
  rw [show serVal (JVal.str s) = qc :: (serStrChars s.data ++ [qc]) from by simp [serVal]]
  rw [parseVal]
  simp only [List.cons_append, List.append_assoc, List.singleton_append]
  rw [skipWs_cons qc _ (by decide)]
  simp only [List.nil_append]
  split
  · rename_i heq
    injection heq with h1 h2
    exact absurd h1 (by decide)
  · rename_i heq
    injection heq with h1 h2
    exact absurd h1 (by decide)
  · rename_i heq
    injection heq with h1 h2
    subst h1
    subst h2
    rw [if_pos rfl, parseStrBody_ser s.data rest hwf []]
    simp only [List.reverse_nil, List.nil_append, mk_data]
  · rename_i heq
    exact absurd heq (by simp)

theorem parseVal_int_step (f : Nat) (n : Int) (rest : List Char) (h : restOk rest) :
    parseVal (f + 1) (serVal (JVal.int n) ++ rest) = some (JVal.int n, rest) := by
  obtain ⟨c, cs, hser, hmem⟩ := serInt_head n
  obtain ⟨hws, hbr, hbk, hq, hn, ht, hf, _, _, hdash⟩ := dashDigit_props c hmem
  rw [show serVal (JVal.int n) = serInt n from by simp [serVal], hser]
  rw [parseVal]
  simp only [List.cons_append]
  rw [skipWs_cons c _ hws]
  split
  · rename_i heq
    injection heq with h1 h2
    exact absurd h1 hbr
  · rename_i heq
    injection heq with h1 h2
    exact absurd h1 hbk
  · rename_i heq
    injection heq with h1 h2
    subst h1
    subst h2
    rw [if_neg hq, if_neg hn, if_neg ht, if_neg hf,
      if_pos (show (decide (c = '-') || isDigitCh c) = true from by
        rcases hdash with hd | hd <;> simp [hd])]
    rw [← List.cons_append, ← hser, ← serVal]
    rw [show serVal (JVal.int n) = serInt n from by simp [serVal]]
    exact parseNumber_serInt n rest h
  · rename_i heq
    exact absurd heq (by simp)

theorem parseVal_arrnil_step (f : Nat) (rest : List Char) :
    parseVal (f + 1) (serVal (JVal.arr []) ++ rest) = some (JVal.arr [], rest) := by
  rw [show serVal (JVal.arr []) = ['[', ']'] from by simp [serVal]]
  rw [parseVal]
  simp only [List.cons_append, List.nil_append]
  rw [skipWs_cons '[' _ (by decide)]
  have h1 : skipWs (']' :: rest) = ']' :: rest := skipWs_cons _ _ (by decide)
  simp [h1]

theorem parseVal_objnil_step (f : Nat) (rest : List Char) :
    parseVal (f + 1) (serVal (JVal.obj []) ++ rest) = some (JVal.obj [], rest) := by
  rw [show serVal (JVal.obj []) = ['{', '}'] from by rw [serVal]]
  rw [parseVal]
  simp only [List.cons_append, List.nil_append]
  rw [skipWs_cons '{' _ (by decide)]
  have h1 : skipWs ('}' :: rest) = '}' :: rest := skipWs_cons _ _ (by decide)
  simp [h1]

theorem parseVal_arrcons_step (f : Nat) (v : JVal) (vs : List JVal) (rest : List Char)
    (hE : parseElems f (serVal v ++ (serElemsRest vs ++ (']' :: rest))) [] =
      some (JVal.arr (v :: vs), rest)) :
    parseVal (f + 1) (serVal (JVal.arr (v :: vs)) ++ rest) =
      some (JVal.arr (v :: vs), rest) := by
  rw [show serVal (JVal.arr (v :: vs)) = '[' :: (serVal v ++ (serElemsRest vs ++ [']']))
    from by simp [serVal]]
  rw [parseVal]
  simp only [List.cons_append, List.append_assoc, List.singleton_append, List.nil_append]
  rw [skipWs_cons '[' _ (by decide)]
  split
  · rename_i heq
    injection heq with h1 h2
    exact absurd h1 (by decide)
  · rename_i heq
    injection heq with h1 h2
    subst h2
    obtain ⟨c, cs, hserv, hws, hnb, _⟩ := serVal_head v
    rw [hserv, List.cons_append, skipWs_cons c _ hws]
    split
    · rename_i heq2
      injection heq2 with h3 h4
      exact absurd h3 hnb
    · rw [← List.cons_append, ← hserv]
      exact hE
  · rename_i hne1 hne2 heq
    injection heq with h1 h2
    exact absurd h1.symm hne2
  · rename_i heq
    exact absurd heq (by simp)

theorem parseVal_objcons_step (f : Nat) (k : String) (v : JVal)
    (kvs : List (String × JVal)) (rest : List Char)
    (hM : parseMembers f (serMember k v ++ (serMembersRest kvs ++ ('}' :: rest))) [] =
      some (JVal.obj ((k, v) :: kvs), rest)) :
    parseVal (f + 1) (serVal (JVal.obj ((k, v) :: kvs)) ++ rest) =
      some (JVal.obj ((k, v) :: kvs), rest) := by
  rw [show serVal (JVal.obj ((k, v) :: kvs)) =
    '{' :: (serMember k v ++ (serMembersRest kvs ++ ['}'])) from by rw [serVal]]
  rw [parseVal]
  simp only [serMember, List.cons_append, List.append_assoc, List.singleton_append,
    List.nil_append] at hM ⊢
  rw [skipWs_cons '{' _ (by decide)]
  split
  · rename_i heq
    injection heq with h1 h2
    subst h2
    rw [skipWs_cons qc _ (by decide)]
    split
    · rename_i heq2
      injection heq2 with h3 h4
      exact absurd h3 (by decide)
    · exact hM
  · rename_i heq
    injection heq with h1 h2
    exact absurd h1 (by decide)
  · rename_i hne1 hne2 heq
    injection heq with h1 h2
    exact absurd h1.symm hne1
  · rename_i heq
    exact absurd heq (by simp)

theorem restOk_members_tail (kvs : List (String × JVal)) (rest : List Char) :
    restOk (serMembersRest kvs ++ ('}' :: rest)) := by
  cases kvs with
  | nil =>
    simp only [serMembersRest, List.nil_append]
    exact Or.inr (Or.inl rfl)
  | cons p kvs =>
    obtain ⟨k, v⟩ := p
    rw [serMembersRest, List.cons_append]
    exact Or.inl rfl

theorem restOk_elems_tail (vs : List JVal) (rest : List Char) :
    restOk (serElemsRest vs ++ (']' :: rest)) := by
  cases vs with
  | nil =>
    simp only [serElemsRest, List.nil_append]
    exact Or.inr (Or.inr rfl)
  | cons v vs =>
    rw [serElemsRest, List.cons_append]
    exact Or.inl rfl

theorem parseMembers_step (f : Nat) (k : String) (v : JVal)
    (kvs : List (String × JVal)) (acc : List (String × JVal)) (rest : List Char)
    (hkey : k.data.all goodStrChar = true)
    (hacc : dget acc k = none)
    (hV : parseVal f (serVal v ++ (serMembersRest kvs ++ ('}' :: rest))) =
      some (v, serMembersRest kvs ++ ('}' :: rest)))
    (hrec : ∀ k2 v2 kvs2, kvs = (k2, v2) :: kvs2 →
      parseMembers f (serMember k2 v2 ++ (serMembersRest kvs2 ++ ('}' :: rest)))
        (acc ++ [(k, v)]) =
        some (JVal.obj ((acc ++ [(k, v)]) ++ (k2, v2) :: kvs2), rest)) :
    parseMembers (f + 1) (serMember k v ++ (serMembersRest kvs ++ ('}' :: rest))) acc =
      some (JVal.obj (acc ++ (k, v) :: kvs), rest) := by
  rw [show f + 1 = Nat.succ f from rfl, parseMembers.eq_def]
  simp only [serMember, List.cons_append, List.append_assoc, List.singleton_append,
    List.nil_append]
  simp only [if_true]
  rw [parseStrBody_ser k.data _ hkey []]
  dsimp only
  simp only [List.reverse_nil, List.nil_append, mk_data]
  rw [skipWs_cons ':' _ (by decide)]
  split
  · rename_i heq
    injection heq with h1 h2
    subst h2
    rw [hV]
    dsimp only
    cases kvs with
    | nil =>
      simp only [serMembersRest, List.nil_append]
      rw [skipWs_cons '}' _ (by decide)]
      split
      · rename_i heq2
        injection heq2 with h3 h4
        exact absurd h3 (by decide)
      · rename_i heq2
        injection heq2 with h3 h4
        subst h4
        rw [dset_append acc k v hacc]
      · rename_i hne1 hne2
        exact absurd rfl (hne2 rest)
    | cons p kvs2 =>
      obtain ⟨k2, v2⟩ := p
      rw [serMembersRest]
      simp only [List.cons_append, List.append_assoc]
      rw [skipWs_cons ',' _ (by decide)]
      split
      · rename_i heq2
        injection heq2 with h3 h4
        subst h4
        rw [dset_append acc k v hacc]
        have hsw : skipWs (serMember k2 v2 ++ (serMembersRest kvs2 ++ ('}' :: rest))) =
            serMember k2 v2 ++ (serMembersRest kvs2 ++ ('}' :: rest)) := by
          rw [show serMember k2 v2 ++ (serMembersRest kvs2 ++ ('}' :: rest)) =
            qc :: ((serStrChars k2.data ++ [qc]) ++
              ((':' :: serVal v2) ++ (serMembersRest kvs2 ++ ('}' :: rest))))
            from by simp [serMember]]
          exact skipWs_cons qc _ (by decide)
        rw [hsw, hrec k2 v2 kvs2 rfl]
        simp
      · rename_i heq2
        injection heq2 with h3 h4
        exact absurd h3 (by decide)
      · rename_i hne1 hne2
        exact absurd rfl (hne1 (serMember k2 v2 ++ (serMembersRest kvs2 ++ ('}' :: rest))))
  · rename_i hne
    exact absurd rfl (hne _)

theorem parseElems_step (f : Nat) (v : JVal) (vs : List JVal) (acc : List JVal)
    (rest : List Char)
    (hV : parseVal f (serVal v ++ (serElemsRest vs ++ (']' :: rest))) =
      some (v, serElemsRest vs ++ (']' :: rest)))
    (hrec : ∀ v2 vs2, vs = v2 :: vs2 →
      parseElems f (serVal v2 ++ (serElemsRest vs2 ++ (']' :: rest))) (acc ++ [v]) =
        some (JVal.arr ((acc ++ [v]) ++ v2 :: vs2), rest)) :
    parseElems (f + 1) (serVal v ++ (serElemsRest vs ++ (']' :: rest))) acc =
      some (JVal.arr (acc ++ v :: vs), rest) := by
  rw [show f + 1 = Nat.succ f from rfl, parseElems.eq_def]
  dsimp only
  rw [hV]
  dsimp only
  cases vs with
  | nil =>
    simp only [serElemsRest, List.nil_append]
    rw [skipWs_cons ']' _ (by decide)]
    split
    · rename_i heq
      injection heq with h1 h2
      exact absurd h1 (by decide)
    · rename_i heq
      injection heq with h1 h2
      subst h2
      rfl
    · rename_i hne1 hne2
      exact absurd rfl (hne2 rest)
  | cons v2 vs2 =>
    rw [serElemsRest]
    simp only [List.cons_append, List.append_assoc]
    rw [skipWs_cons ',' _ (by decide)]
    split
    · rename_i heq
      injection heq with h1 h2
      subst h2
      rw [hrec v2 vs2 rfl]
      simp
    · rename_i heq
      injection heq with h1 h2
      exact absurd h1 (by decide)
    · rename_i hne1 hne2
      exact absurd rfl (hne1 _)

theorem not_mem_of_contains_false (kvs : List (String × JVal)) (k : String)
    (h : (kvs.map Prod.fst).contains k = false) :
    ∀ p ∈ kvs, ¬ p.1 = k := by
  intro p hp hpk
  have h2 : k ∉ kvs.map Prod.fst := by simpa using h
  exact h2 (hpk ▸ List.mem_map_of_mem Prod.fst hp)

/-- Completeness of the fuel-indexed parser on serialised output: with
enough fuel, `parseVal` reads a well-formed value back exactly, and the
member/element loops absorb serialised tails. -/
theorem parse_roundtrip (f : Nat) :
    (∀ v rest, wfJ v = true → sizeV v ≤ f → restOk rest →
      parseVal f (serVal v ++ rest) = some (v, rest)) ∧
    (∀ k v kvs acc rest, wfMembers ((k, v) :: kvs) = true →
      (∀ p ∈ (k, v) :: kvs, dget acc p.1 = none) →
      sizeMembers ((k, v) :: kvs) ≤ f → restOk rest →
      parseMembers f (serMember k v ++ (serMembersRest kvs ++ ('}' :: rest))) acc =
        some (JVal.obj (acc ++ (k, v) :: kvs), rest)) ∧
    (∀ v vs acc rest, wfElems (v :: vs) = true → sizeElems (v :: vs) ≤ f →
      restOk rest →
      parseElems f (serVal v ++ (serElemsRest vs ++ (']' :: rest))) acc =
        some (JVal.arr (acc ++ v :: vs), rest)) := by
  induction f with
  | zero =>
    refine ⟨?_, ?_, ?_⟩
    · intro v rest hwf hsz hrest
      have := sizeV_pos v
      omega
    · intro k v kvs acc rest hwf hdisj hsz hrest
      rw [sizeMembers] at hsz
      omega
    · intro v vs acc rest hwf hsz hrest
      rw [sizeElems] at hsz
      omega
  | succ f ih =>
    obtain ⟨ihV, ihM, ihE⟩ := ih
    refine ⟨?_, ?_, ?_⟩
    · intro v rest hwf hsz hrest
      cases v with
      | null => exact parseVal_null_step f rest
      | bool b =>
        cases b with
        | true => exact parseVal_true_step f rest
        | false => exact parseVal_false_step f rest
      | int n => exact parseVal_int_step f n rest hrest
      | str s =>
        apply parseVal_str_step
        simpa [wfJ] using hwf
      | arr vs =>
        cases vs with
        | nil => exact parseVal_arrnil_step f rest
        | cons v1 vs1 =>
          apply parseVal_arrcons_step
          have h1 : wfElems (v1 :: vs1) = true := by simpa [wfJ] using hwf
          have h2 : sizeElems (v1 :: vs1) ≤ f := by
            rw [sizeV] at hsz
            omega
          have h3 := ihE v1 vs1 [] rest h1 h2 hrest
          simpa using h3
      | obj kvs =>
        cases kvs with
        | nil => exact parseVal_objnil_step f rest
        | cons p kvs1 =>
          obtain ⟨k, v⟩ := p
          apply parseVal_objcons_step
          have h1 : wfMembers ((k, v) :: kvs1) = true := by simpa [wfJ] using hwf
          have h2 : sizeMembers ((k, v) :: kvs1) ≤ f := by
            rw [sizeV] at hsz
            omega
          have h3 : ∀ p ∈ (k, v) :: kvs1, dget ([] : List (String × JVal)) p.1 = none := by
            intro p hp
            rfl
          have h4 := ihM k v kvs1 [] rest h1 h3 h2 hrest
          simpa using h4
    · intro k v kvs acc rest hwf hdisj hsz hrest
      have hwf' := hwf
      rw [wfMembers] at hwf'
      simp only [Bool.and_eq_true, Bool.not_eq_true'] at hwf'
      obtain ⟨⟨⟨hkey, hdup⟩, hwfv⟩, hwfkvs⟩ := hwf'
      refine parseMembers_step f k v kvs acc rest hkey
        (hdisj (k, v) (List.mem_cons_self _ _)) ?_ ?_
      · refine ihV v _ hwfv ?_ (restOk_members_tail kvs rest)
        rw [sizeMembers] at hsz
        dsimp only at hsz
        omega
      · intro k2 v2 kvs2 hkvs
        subst hkvs
        refine ihM k2 v2 kvs2 (acc ++ [(k, v)]) rest hwfkvs ?_ ?_ hrest
        · intro p hp
          have hpacc : dget acc p.1 = none := hdisj p (List.mem_cons_of_mem _ hp)
          rw [dget_append_right acc [(k, v)] p.1 hpacc]
          exact dget_pair_ne k p.1 v
            (fun h => not_mem_of_contains_false _ k hdup p hp h.symm)
        · rw [sizeMembers] at hsz
          dsimp only at hsz
          omega
    · intro v vs acc rest hwf hsz hrest
      have hwf' := hwf
      rw [wfElems] at hwf'
      simp only [Bool.and_eq_true] at hwf'
      obtain ⟨hwfv, hwfvs⟩ := hwf'
      refine parseElems_step f v vs acc rest ?_ ?_
      · refine ihV v _ hwfv ?_ (restOk_elems_tail vs rest)
        rw [sizeElems] at hsz
        omega
      · intro v2 vs2 hvs
        subst hvs
        refine ihE v2 vs2 (acc ++ [v]) rest hwfvs ?_ hrest
        rw [sizeElems] at hsz
        omega

theorem jsonParseL_serVal (v : JVal) (hwf : wfJ v = true) :
    jsonParseL (serVal v) = some v := by
  rw [jsonParseL]
  have hb := sizeV_le v
  have hr := (parse_roundtrip (2 * (serVal v).length + 2)).1 v [] hwf (by omega) trivial
  rw [List.append_nil] at hr
  rw [hr]
  simp [skipWs]

theorem pyStrip_serVal_obj (kvs : List (String × JVal)) :
    pyStrip (serVal (JVal.obj kvs)) = serVal (JVal.obj kvs) := by
  obtain ⟨mid, hshape⟩ := serVal_obj_shape kvs
  apply pyStrip_eq
  · intro c hc
    rw [hshape] at hc
    simp only [List.head?_cons, Option.some.injEq] at hc
    subst hc
    decide
  · intro c hc
    rw [hshape, show '{' :: (mid ++ ['}']) = ('{' :: mid) ++ ['}'] from by simp,
      List.getLast?_concat] at hc
    injection hc with hc
    subst hc
    decide

theorem stripLeadFence_serVal_obj (kvs : List (String × JVal)) :
    stripLeadFence (serVal (JVal.obj kvs)) = serVal (JVal.obj kvs) := by
  obtain ⟨mid, hshape⟩ := serVal_obj_shape kvs
  rw [stripLeadFence, if_neg ?_]
  intro hEq
  rw [hshape] at hEq
  have h := congrArg List.head? hEq
  simp [fenceMark] at h

theorem stripTrailFence_serVal_obj (kvs : List (String × JVal)) :
    stripTrailFence (serVal (JVal.obj kvs)) = serVal (JVal.obj kvs) := by
  obtain ⟨mid, hshape⟩ := serVal_obj_shape kvs
  rw [stripTrailFence, if_neg ?_]
  intro hEq
  rw [hshape] at hEq
  simp only [List.reverse_cons, List.reverse_append, List.reverse_singleton,
    List.singleton_append, List.cons_append] at hEq
  have h := congrArg List.head? hEq
  simp [fenceMark] at h

theorem extract_json_minify (kvs : List (String × JVal))
    (hwf : wfJ (JVal.obj kvs) = true) :
    extract_json (minify (JVal.obj kvs)) = some (JVal.obj kvs) := by
  rw [extract_json.eq_def]
  dsimp only
  rw [show (minify (JVal.obj kvs)).data = serVal (JVal.obj kvs) from rfl]
  rw [pyStrip_serVal_obj, stripLeadFence_serVal_obj, stripTrailFence_serVal_obj,
    jsonParseL_serVal _ hwf]

theorem extract_json_fenced (kvs : List (String × JVal))
    (hwf : wfJ (JVal.obj kvs) = true) :
    extract_json ("```json\n" ++ minify (JVal.obj kvs) ++ "\n```") =
      some (JVal.obj kvs) := by
  obtain ⟨mid, hshape⟩ := serVal_obj_shape kvs
  have hdata : ("```json\n" ++ minify (JVal.obj kvs) ++ "\n```").data =
      btk :: btk :: btk :: 'j' :: 's' :: 'o' :: 'n' :: '\n' ::
        (serVal (JVal.obj kvs) ++ ('\n' :: btk :: btk :: btk :: [])) := by
    rw [String.data_append, String.data_append]
    rw [show ("```json\n" : String).data =
      btk :: btk :: btk :: 'j' :: 's' :: 'o' :: 'n' :: '\n' :: [] from rfl]
    rw [show ("\n```" : String).data = '\n' :: btk :: btk :: btk :: [] from rfl]
    rw [show (minify (JVal.obj kvs)).data = serVal (JVal.obj kvs) from rfl]
    simp
  have hps : pyStrip (btk :: btk :: btk :: 'j' :: 's' :: 'o' :: 'n' :: '\n' ::
      (serVal (JVal.obj kvs) ++ ('\n' :: btk :: btk :: btk :: []))) =
      btk :: btk :: btk :: 'j' :: 's' :: 'o' :: 'n' :: '\n' ::
        (serVal (JVal.obj kvs) ++ ('\n' :: btk :: btk :: btk :: [])) := by
    apply pyStrip_eq
    · intro c hc
      simp only [List.head?_cons, Option.some.injEq] at hc
      subst hc
      decide
    · intro c hc
      rw [show btk :: btk :: btk :: 'j' :: 's' :: 'o' :: 'n' :: '\n' ::
        (serVal (JVal.obj kvs) ++ ('\n' :: btk :: btk :: btk :: [])) =
        (btk :: btk :: btk :: 'j' :: 's' :: 'o' :: 'n' :: '\n' ::
          (serVal (JVal.obj kvs) ++ ('\n' :: btk :: btk :: []))) ++ [btk]
        from by simp, List.getLast?_concat] at hc
      injection hc with hc
      subst hc
      decide
  have hlf : stripLeadFence (btk :: btk :: btk :: 'j' :: 's' :: 'o' :: 'n' :: '\n' ::
      (serVal (JVal.obj kvs) ++ ('\n' :: btk :: btk :: btk :: []))) =
      serVal (JVal.obj kvs) ++ ('\n' :: btk :: btk :: btk :: []) := by
    rw [stripLeadFence]
    rw [if_pos (show List.take 3 (btk :: btk :: btk :: 'j' :: 's' :: 'o' :: 'n' :: '\n' ::
      (serVal (JVal.obj kvs) ++ ('\n' :: btk :: btk :: btk :: []))) = fenceMark
      from rfl)]
    dsimp only
    rw [if_pos (show List.map Char.toLower (List.take 4 (List.drop 3
      (btk :: btk :: btk :: 'j' :: 's' :: 'o' :: 'n' :: '\n' ::
        (serVal (JVal.obj kvs) ++ ('\n' :: btk :: btk :: btk :: []))))) =
      ['j', 's', 'o', 'n'] from rfl)]
    rw [show List.drop 4 (List.drop 3 (btk :: btk :: btk :: 'j' :: 's' :: 'o' :: 'n' ::
      '\n' :: (serVal (JVal.obj kvs) ++ ('\n' :: btk :: btk :: btk :: [])))) =
      '\n' :: (serVal (JVal.obj kvs) ++ ('\n' :: btk :: btk :: btk :: [])) from rfl]
    rw [List.dropWhile_cons, if_pos (show isPySpace '\n' = true from by decide)]
    apply dropWhile_of_head
    intro c hc
    rw [hshape, List.cons_append, List.head?_cons] at hc
    injection hc with hc
    subst hc
    decide
  have htf : stripTrailFence (serVal (JVal.obj kvs) ++
      ('\n' :: btk :: btk :: btk :: [])) = serVal (JVal.obj kvs) := by
    have hrev : (serVal (JVal.obj kvs) ++ ('\n' :: btk :: btk :: btk :: [])).reverse =
        btk :: btk :: btk :: '\n' :: (serVal (JVal.obj kvs)).reverse := by
      simp
    rw [stripTrailFence, if_pos (by rw [hrev]; rfl)]
    rw [hrev]
    rw [show (btk :: btk :: btk :: '\n' :: (serVal (JVal.obj kvs)).reverse).drop 3 =
      '\n' :: (serVal (JVal.obj kvs)).reverse from rfl]
    rw [List.dropWhile_cons, if_pos (show isPySpace '\n' = true from by decide)]
    rw [dropWhile_of_head _ _ ?_, List.reverse_reverse]
    intro c hc
    rw [hshape] at hc
    simp only [List.reverse_cons, List.reverse_append, List.reverse_singleton,
      List.reverse_nil, List.nil_append, List.append_assoc,
      List.singleton_append, List.cons_append, List.head?_cons,
      Option.some.injEq] at hc
    subst hc
    decide
  rw [extract_json.eq_def]
  dsimp only
  rw [hdata, hps, hlf, htf, jsonParseL_serVal _ hwf]

theorem mem_dropWhile (p : Char → Bool) (l : List Char) (x : Char)
    (h : x ∈ l.dropWhile p) : x ∈ l := by
  induction l with
  | nil => simpa using h
  | cons d r ih =>
    rw [List.dropWhile_cons] at h
    by_cases hc : p d = true
    · rw [if_pos hc] at h
      exact List.mem_cons_of_mem _ (ih h)
    · rw [if_neg hc] at h
      exact h

theorem mem_drop (x : Char) (n : Nat) (l : List Char) (h : x ∈ l.drop n) : x ∈ l := by
  induction n generalizing l with
  | zero => simpa using h
  | succ n ih =>
    cases l with
    | nil => simpa using h
    | cons d r => exact List.mem_cons_of_mem _ (ih r h)

theorem mem_pyStrip (x : Char) (l : List Char) (h : x ∈ pyStrip l) : x ∈ l := by
  rw [pyStrip] at h
  rw [List.mem_reverse] at h
  have h2 := mem_dropWhile _ _ _ h
  rw [List.mem_reverse] at h2
  exact mem_dropWhile _ _ _ h2

theorem mem_stripLeadFence (x : Char) (l : List Char) (h : x ∈ stripLeadFence l) :
    x ∈ l := by
  rw [stripLeadFence] at h
  split at h
  · dsimp only at h
    have h2 := mem_dropWhile _ _ _ h
    by_cases hc : ((l.drop 3).take 4).map Char.toLower = ['j', 's', 'o', 'n']
    · rw [if_pos hc] at h2
      exact mem_drop _ _ _ (mem_drop _ _ _ h2)
    · rw [if_neg hc] at h2
      exact mem_drop _ _ _ h2
  · exact h

theorem mem_stripTrailFence (x : Char) (l : List Char) (h : x ∈ stripTrailFence l) :
    x ∈ l := by
  rw [stripTrailFence] at h
  split at h
  · rw [List.mem_reverse] at h
    have h2 := mem_dropWhile _ _ _ h
    have h3 := mem_drop _ _ _ h2
    rw [List.mem_reverse] at h3
    exact h3
  · exact h

theorem firstIdx_none (c : Char) (l : List Char) (h : c ∉ l) : firstIdx c l = none := by
  induction l with
  | nil => rfl
  | cons d r ih =>
    rw [firstIdx]
    rw [if_neg (by
      intro hdc
      apply h
      rw [hdc]
      exact List.mem_cons_self _ _)]
    rw [ih (fun hm => h (List.mem_cons_of_mem _ hm))]
    rfl

theorem mkIntResult_shape (neg : Bool) (m : Nat) (r : List Char) (v : JVal)
    (rr : List Char) (h : mkIntResult neg m r = some (v, rr)) :
    ∃ n, v = JVal.int n := by
  rw [mkIntResult.eq_def] at h
  dsimp only at h
  split at h
  · split at h
    · exact absurd h (by simp)
    · injection h with h
      injection h with h1 h2
      exact ⟨_, h1.symm⟩
  · injection h with h
    injection h with h1 h2
    exact ⟨_, h1.symm⟩

theorem parseNumber_int_shape (l : List Char) (v : JVal) (r : List Char)
    (h : parseNumber l = some (v, r)) : ∃ n, v = JVal.int n := by
  rw [parseNumber.eq_def] at h
  dsimp only at h
  split at h
  · exact absurd h (by simp)
  · split at h
    · exact mkIntResult_shape _ _ _ _ _ h
    · split at h
      · exact mkIntResult_shape _ _ _ _ _ h
      · exact absurd h (by simp)

theorem parseElems_arr_shape (f : Nat) : ∀ l acc v r,
    parseElems f l acc = some (v, r) → ∃ vs, v = JVal.arr vs := by
  induction f with
  | zero =>
    intro l acc v r h
    exact absurd h (by rw [show parseElems 0 l acc = none from rfl]; simp)
  | succ f ih =>
    intro l acc v r h
    rw [show f + 1 = Nat.succ f from rfl, parseElems.eq_def] at h
    dsimp only at h
    split at h
    · split at h
      · exact ih _ _ _ _ h
      · injection h with h
        injection h with h1 h2
        exact ⟨_, h1.symm⟩
      · exact absurd h (by simp)
    · exact absurd h (by simp)

theorem parseVal_obj_mem (f : Nat) : ∀ l kvs r,
    parseVal f l = some (JVal.obj kvs, r) → '{' ∈ l := by
  induction f with
  | zero =>
    intro l kvs r h
    exact absurd h (by rw [show parseVal 0 l = none from rfl]; simp)
  | succ f ih =>
    intro l kvs r h
    rw [show f + 1 = Nat.succ f from rfl, parseVal.eq_def] at h
    dsimp only at h
    split at h
    · rename_i r2 heq
      have hm : '{' ∈ skipWs l := by
        rw [heq]
        exact List.mem_cons_self _ _
      exact mem_dropWhile _ _ _ hm
    · split at h
      · exact absurd h (by simp)
      · obtain ⟨vs, hv⟩ := parseElems_arr_shape f _ _ _ _ h
        exact absurd hv (by simp)
    · split at h
      · split at h
        · exact absurd h (by simp)
        · exact absurd h (by simp)
      · split at h
        · split at h
          · exact absurd h (by simp)
          · exact absurd h (by simp)
        · split at h
          · split at h
            · exact absurd h (by simp)
            · exact absurd h (by simp)
          · split at h
            · split at h
              · exact absurd h (by simp)
              · exact absurd h (by simp)
            · split at h
              · obtain ⟨n, hn⟩ := parseNumber_int_shape _ _ _ h
                exact absurd hn (by simp)
              · exact absurd h (by simp)
    · exact absurd h (by simp)

theorem jsonParseL_obj_mem (l : List Char) (kvs : List (String × JVal))
    (h : jsonParseL l = some (JVal.obj kvs)) : '{' ∈ l := by
  rw [jsonParseL] at h
  split at h
  · rename_i v r heq
    split at h
    · injection h with h
      subst h
      exact parseVal_obj_mem _ _ _ _ heq
    · exact absurd h (by simp)
  · exact absurd h (by simp)

theorem extract_json_no_brace (s : String) (h : '{' ∉ s.data) :
    extract_json s = none := by
  rw [extract_json.eq_def]
  dsimp only
  have hmem : '{' ∉ stripTrailFence (stripLeadFence (pyStrip s.data)) := fun hx =>
    h (mem_pyStrip _ _ (mem_stripLeadFence _ _ (mem_stripTrailFence _ _ hx)))
  have hbc : braceChunk (stripTrailFence (stripLeadFence (pyStrip s.data))) = none := by
    rw [braceChunk, firstIdx_none '{' _ hmem]
  cases hj : jsonParseL (stripTrailFence (stripLeadFence (pyStrip s.data))) with
  | none =>
    dsimp only
    rw [hbc]
  | some v =>
    cases v with
    | obj kvs => exact absurd (jsonParseL_obj_mem _ _ hj) hmem
    | null =>
      dsimp only
      rw [hbc]
    | bool b =>
      cases b <;> (dsimp only; rw [hbc])
    | int n =>
      dsimp only
      rw [hbc]
    | str str =>
      dsimp only
      rw [hbc]
    | arr vs =>
      dsimp only
      rw [hbc]

/-- C9: the JSON extractor returns exactly the object denoted by an
already-minified JSON object string (so re-serialising and re-extracting
is idempotent); it returns that same object when the string is wrapped in
a three-backtick `json` fenced block; and it returns no result on a string
containing no opening-brace character.  Well-formedness asks only what is
automatic for real data: strings free of raw control characters and
objects free of duplicate keys. -/
theorem c9_extractor :
    (∀ kvs, wfJ (JVal.obj kvs) = true →
      extract_json (minify (JVal.obj kvs)) = some (JVal.obj kvs)) ∧
    (∀ kvs, wfJ (JVal.obj kvs) = true →
      extract_json ("```json\n" ++ minify (JVal.obj kvs) ++ "\n```") =
        some (JVal.obj kvs)) ∧
    (∀ s : String, '{' ∉ s.data → extract_json s = none) :=
  ⟨extract_json_minify, extract_json_fenced, extract_json_no_brace⟩

/-- Witness for C9 at concrete inputs: the empty object round-trips bare
and fenced, and a prose sentence with no brace extracts nothing. -/
theorem c9_extractor_witness :
    extract_json (minify (JVal.obj [])) = some (JVal.obj []) ∧
    extract_json ("```json\n" ++ minify (JVal.obj []) ++ "\n```") =
      some (JVal.obj []) ∧
    extract_json "The reply is plain prose with no braces at all." = none :=
  ⟨c9_extractor.1 [] (by rw [wfJ, wfMembers]),
   c9_extractor.2.1 [] (by rw [wfJ, wfMembers]),
   c9_extractor.2.2 "The reply is plain prose with no braces at all." (by decide)⟩
